import Mathlib

/-!
# VoltDB execution engine: order-by and upsert executors, index-scan plan node

A shallow embedding of `src/ee/executors/orderbyexecutor.cpp`,
`src/ee/executors/upsertexecutor.cpp` and `src/ee/plannodes/indexscannode.cpp`,
with the properties of the executors and of the plan node stated and proved over
the embedding.

Conventions of the embedding:

* a temp table is the list of its tuples in iteration order;
* an `AbstractExpression` used as a sort key is the function computed by
  `eval(&tuple, NULL)`;
* `NValue::compare` is a parameter `compare : Value → Value → Int`;
* a thrown C++ exception is the `error` case of `Except`;
* `int` counters are `Int` (they count tuples of one table, far below `2^31`).
-/

namespace voltdb

/-! ## Order-by executor -/

/-- Modelled from the spec: the sort directions, ascending, descending and the
invalid one. The declaration of the enum is not among the sources; the three
names are the ones `orderbyexecutor.cpp` uses. -/
inductive SortDirectionType where
  | SORT_DIRECTION_TYPE_INVALID
  | SORT_DIRECTION_TYPE_ASC
  | SORT_DIRECTION_TYPE_DESC
  deriving DecidableEq

open SortDirectionType

/-- The exception thrown by the comparer, as the source builds it:
`SerializableEEException(VOLT_EE_EXCEPTION_TYPE_EEEXCEPTION, message)`. -/
structure SerializableEEException where
  message : String
  deriving DecidableEq

/-- The one exception `TupleComparer::operator()` throws. -/
def sortInvalidException : SerializableEEException :=
  ⟨"Attempted to sort using SORT_DIRECTION_TYPE_INVALID"⟩

/-- A sort-key expression, as the function `fun t => k->eval(&t, NULL)`. -/
abbrev AbstractExpression (Tuple Value : Type) := Tuple → Value

/-- The call `TupleComparer::operator()(ta, tb)`: the loop `for (i = 0; i < m_keyCount; ++i)`
over `m_keys[i]`, `m_dirs[i]`, written as a recursion on the two vectors from
index `i` on. The constructor asserts `keys.size() == dirs.size()`; reading
`m_dirs[i]` past the end of a shorter `dirs` has no defined behaviour in the
source and is placed with the unrecognised directions here. -/
def TupleComparer {Tuple Value : Type} (compare : Value → Value → Int) :
    List (AbstractExpression Tuple Value) → List SortDirectionType →
    Tuple → Tuple → Except SerializableEEException Bool
  | [], _, _, _ => .ok false
  | _ :: _, [], _, _ => .error sortInvalidException
  | k :: keys, dir :: dirs, ta, tb =>
    let cmp := compare (k ta) (k tb)
    match dir with
    | SORT_DIRECTION_TYPE_ASC =>
      if cmp < 0 then .ok true
      else if cmp > 0 then .ok false
      else TupleComparer compare keys dirs ta tb
    | SORT_DIRECTION_TYPE_DESC =>
      if cmp < 0 then .ok false
      else if cmp > 0 then .ok true
      else TupleComparer compare keys dirs ta tb
    | SORT_DIRECTION_TYPE_INVALID => .error sortInvalidException

/-- One insertion step of the sort: `x` is placed in front of the first element
it sorts strictly before. A throwing comparison propagates. -/
def sortInsert {α ε : Type} (comp : α → α → Except ε Bool) (x : α) :
    List α → Except ε (List α)
  | [] => .ok [x]
  | y :: ys =>
    match comp x y with
    | .error e => .error e
    | .ok true => .ok (x :: y :: ys)
    | .ok false =>
      match sortInsert comp x ys with
      | .error e => .error e
      | .ok zs => .ok (y :: zs)

/-- The loop of the sort: `acc` is the sorted prefix, the list the elements
still to be inserted, taken left to right. -/
def sortLoop {α ε : Type} (comp : α → α → Except ε Bool) :
    List α → List α → Except ε (List α)
  | acc, [] => .ok acc
  | acc, x :: xs =>
    match sortInsert comp x acc with
    | .error e => .error e
    | .ok acc' => sortLoop comp acc' xs

/-- The call `sort(xs.begin(), xs.end(), comp)` of `<algorithm>`. The standard
library is not repository code; it is modelled as an insertion sort (the
algorithm libstdc++ runs on short ranges), which uses the elements only
through `comp`, makes no comparison on ranges of fewer than two elements, and
lets an exception thrown by `comp` escape. -/
def std_sort {α ε : Type} (comp : α → α → Except ε Bool) (xs : List α) :
    Except ε (List α) :=
  sortLoop comp [] xs

/-- What `OrderByExecutor::p_execute` leaves behind when it returns `true`:
the tuples inserted into the output temp table, in insertion order, and the
number of `pmp.countdownProgress()` calls made. -/
structure OrderByResult (Tuple : Type) where
  output : List Tuple
  progress : Nat
  deriving DecidableEq

/-- The unloading loop of `OrderByExecutor::p_execute` (source lines 159-178)
over the remaining sorted tuples, with the loop variables `tuple_ctr`,
`tuple_skipped` and the output built so far. -/
def unloadLoop {Tuple : Type} (limit offset : Int) :
    List Tuple → Int → Int → OrderByResult Tuple → OrderByResult Tuple
  | [], _, _, res => res
  | t :: rest, tuple_ctr, tuple_skipped, res =>
    if tuple_skipped < offset then
      unloadLoop limit offset rest tuple_ctr (tuple_skipped + 1) res
    else
      let res' : OrderByResult Tuple := ⟨res.output ++ [t], res.progress + 1⟩
      if limit ≥ 0 then
        if tuple_ctr + 1 ≥ limit then res'
        else unloadLoop limit offset rest (tuple_ctr + 1) tuple_skipped res'
      else unloadLoop limit offset rest tuple_ctr tuple_skipped res'

/-- The function `OrderByExecutor::p_execute`. `limit` and `offset` are the values left in
the two locals by `m_inlineLimitOffset.getLimitAndOffsetByReference` (both `-1`
when there is no inlined limit node); `input` is the input table in iteration
order; `keys`, `dirs` are `node->getSortExpressions()`,
`node->getSortDirections()`. The reading loop calls `countdownProgress` once
per input tuple. The result is `ok` when the function returns `true`, and the
exception when the comparer throws during the sort. -/
def OrderByExecutor.p_execute {Tuple Value : Type} (compare : Value → Value → Int)
    (keys : List (AbstractExpression Tuple Value)) (dirs : List SortDirectionType)
    (limit offset : Int) (input : List Tuple) :
    Except SerializableEEException (OrderByResult Tuple) :=
  match std_sort (TupleComparer compare keys dirs) input with
  | .error e => .error e
  | .ok xs => .ok (unloadLoop limit offset xs 0 0 ⟨[], input.length⟩)

/-! ## Upsert executor -/

/-- Modelled from the spec: the persistent target table of
`storage/persistenttable.h`, which is not among the sources. It carries the
table name, the partition column (`-1` when the table is not partitioned),
whether `primaryKeyIndex()` is non-null, and the rows in storage order; a
position in `rows` stands for a tuple's storage address. -/
structure PersistentTable (Tuple : Type) where
  name : String
  partitionColumn : Int
  hasPrimaryKeyIndex : Bool
  rows : List Tuple
  deriving DecidableEq

/-- Modelled from the spec: the collaborators `UpsertExecutor` consumes and
whose code is not among the sources (section 6, table/index provider and
partition routing).

* `primaryKey t`: the primary-key columns of `t`, the key of the index;
* `getNValue t c`: `t.getNValue(c)`;
* `isLocalSite v`: `m_engine->isLocalSite(v)`;
* `acceptsInsert rows t`: the table takes the insert of `t` (no constraint
  or capacity violation);
* `acceptsUpdate rows i t`: the table takes the update of the row at
  position `i` to the values of `t`;
* `scanLookup rows t`: what `lookupTuple` finds on a table without a
  primary-key index;
* `assertsEnabled`: the build keeps `assert` (no `NDEBUG`). -/
structure Collaborators (Tuple Key Value : Type) where
  primaryKey : Tuple → Key
  getNValue : Tuple → Int → Value
  isLocalSite : Value → Bool
  acceptsInsert : List Tuple → Tuple → Bool
  acceptsUpdate : List Tuple → Nat → Tuple → Bool
  scanLookup : List Tuple → Tuple → Option Nat
  assertsEnabled : Bool

/-- Modelled from the spec: the probe of the primary-key index (the index code
is not among the sources), giving the position of the row whose primary key is
`key`, the first one should there be several. -/
def uniqueMatchingTuple {Tuple Key : Type} [DecidableEq Key]
    (primaryKey : Tuple → Key) (key : Key) : List Tuple → Option Nat
  | [] => none
  | r :: rows =>
    if primaryKey r = key then some 0
    else match uniqueMatchingTuple primaryKey key rows with
      | none => none
      | some i => some (i + 1)

/-- Modelled from the spec: `targetTable->lookupTuple(t)`, "look up the
existing row by primary key"; `none` is the null tuple. -/
def PersistentTable.lookupTuple {Tuple Key Value : Type} [DecidableEq Key]
    (env : Collaborators Tuple Key Value) (table : PersistentTable Tuple)
    (t : Tuple) : Option Nat :=
  if table.hasPrimaryKeyIndex then
    uniqueMatchingTuple env.primaryKey (env.primaryKey t) table.rows
  else env.scanLookup table.rows t

/-- Modelled from the spec: `targetTable->insertTuple(t)`, "insert(table,
tuple) → success/failure". `none` is the `false` return, the table being left
as it was; on success the table gains the row. -/
def PersistentTable.insertTuple {Tuple Key Value : Type}
    (env : Collaborators Tuple Key Value) (table : PersistentTable Tuple)
    (t : Tuple) : Option (PersistentTable Tuple) :=
  if env.acceptsInsert table.rows t then
    some { table with rows := table.rows ++ [t] }
  else none

/-- Modelled from the spec: `targetTable->updateTupleWithSpecificIndexes(
existsTuple, tempTuple, allIndexes())`, "update(table, old, new, indexSet) →
success/failure": the row at the address of `existsTuple` takes the values of
the new tuple. `none` is the `false` return. -/
def PersistentTable.updateTupleWithSpecificIndexes {Tuple Key Value : Type}
    (env : Collaborators Tuple Key Value) (table : PersistentTable Tuple)
    (existsTuple : Nat) (tempTuple : Tuple) : Option (PersistentTable Tuple) :=
  if env.acceptsUpdate table.rows existsTuple tempTuple then
    some { table with rows := table.rows.set existsTuple tempTuple }
  else none

/-- The plan node as far as `p_initMore` reads it. -/
structure UpsertPlanNode where
  isMultiPartition : Bool
  deriving DecidableEq

/-- The fields of `UpsertExecutor` set by `p_initMore`. -/
structure UpsertExecutor where
  m_partitionColumn : Int
  m_partitionColumnIsString : Bool
  m_multiPartition : Bool
  deriving DecidableEq

/-- The function `UpsertExecutor::p_initMore`. `inputColumnIsVarchar c` is
`input_table->schema()->columnType(c) == VALUE_TYPE_VARCHAR`. The function
reads the partition column and the multi-partition flag; it does not look at
the primary-key index. -/
def UpsertExecutor.p_initMore {Tuple : Type} (node : UpsertPlanNode)
    (persistentTarget : PersistentTable Tuple) (inputColumnIsVarchar : Int → Bool) :
    UpsertExecutor :=
  let m_partitionColumn := persistentTarget.partitionColumn
  { m_partitionColumn := m_partitionColumn
    m_partitionColumnIsString :=
      if m_partitionColumn ≠ -1 then
        (if inputColumnIsVarchar m_partitionColumn then true else false)
      else false
    m_multiPartition := node.isMultiPartition }

/-- How one invocation of `UpsertExecutor::p_execute` ends. -/
inductive UpsertOutcome (Tuple : Type) where
  /-- The call ends with `return true`, after `setModifiedTuples(modifiedTuples)`. -/
  | returnedTrue (modifiedTuples : Int)
  /-- The call ends with `return false`; `setModifiedTuples` is not reached. -/
  | returnedFalse
  /-- The call ends with `throw ConstraintFailureException(targetTable, tbTuple, message)`. -/
  | constraintFailure (table : String) (tuple : Tuple) (message : String)
  /-- A failed `assert` in a build that keeps assertions. -/
  | assertionFailed
  deriving DecidableEq

/-- The message of the exception for a mispartitioned tuple. -/
def mispartitionedMessage : String :=
  "Mispartitioned tuple in single-partition upsert statement."

/-- Whether the loop body goes past the partition check for `t` (source lines
110-125): the table is not partitioned, or the partition value is local. -/
def UpsertExecutor.isProcessed {Tuple Key Value : Type}
    (env : Collaborators Tuple Key Value) (exec : UpsertExecutor) (t : Tuple) : Bool :=
  if exec.m_partitionColumn ≠ -1 then
    env.isLocalSite (env.getNValue t exec.m_partitionColumn)
  else true

/-- The loop `while (iterator.next(tbTuple))` of `UpsertExecutor::p_execute`
(source lines 104-159) over the remaining input rows, from the current state
of the target table and of the counter `modifiedTuples`; it ends with lines
161-163 when the input is exhausted. -/
def UpsertExecutor.upsertLoop {Tuple Key Value : Type} [DecidableEq Key]
    (env : Collaborators Tuple Key Value) (exec : UpsertExecutor) :
    List Tuple → PersistentTable Tuple → Int →
    UpsertOutcome Tuple × PersistentTable Tuple
  | [], targetTable, modifiedTuples => (.returnedTrue modifiedTuples, targetTable)
  | tbTuple :: rest, targetTable, modifiedTuples =>
    if exec.m_partitionColumn ≠ -1 ∧
        env.isLocalSite (env.getNValue tbTuple exec.m_partitionColumn) = false then
      if exec.m_multiPartition = false then
        (.constraintFailure targetTable.name tbTuple mispartitionedMessage, targetTable)
      else UpsertExecutor.upsertLoop env exec rest targetTable modifiedTuples
    else if env.assertsEnabled = true ∧ targetTable.hasPrimaryKeyIndex = false then
      (.assertionFailed, targetTable)
    else
      match targetTable.lookupTuple env tbTuple with
      | none =>
        match targetTable.insertTuple env tbTuple with
        | none => (.returnedFalse, targetTable)
        | some table' =>
          UpsertExecutor.upsertLoop env exec rest table' (modifiedTuples + 1)
      | some existsTuple =>
        match targetTable.updateTupleWithSpecificIndexes env existsTuple tbTuple with
        | none => (.returnedFalse, targetTable)
        | some table' =>
          UpsertExecutor.upsertLoop env exec rest table' (modifiedTuples + 1)

/-- The function `UpsertExecutor::p_execute` on the input temp table `input` (in iteration
order) and the target table; the result is how the call ends and the target
table it leaves. The assertions on the table pointers and column counts hold
by the types; `assert(!input_table->isTempTableEmpty())` is kept. -/
def UpsertExecutor.p_execute {Tuple Key Value : Type} [DecidableEq Key]
    (env : Collaborators Tuple Key Value) (exec : UpsertExecutor)
    (input : List Tuple) (targetTable : PersistentTable Tuple) :
    UpsertOutcome Tuple × PersistentTable Tuple :=
  if env.assertsEnabled = true ∧ input.isEmpty = true then
    (.assertionFailed, targetTable)
  else UpsertExecutor.upsertLoop env exec input targetTable 0

/-! ## Index-scan plan node -/

/-- The members of `IndexScanPlanNode` that `indexscannode.cpp` reads and writes. A
null expression pointer is `none`; `scan` is the state of the base class
`AbstractScanPlanNode`, whose declaration is not among the sources. -/
structure IndexScanPlanNode (Expr LookupType Scan : Type) where
  scan : Scan
  m_target_index_name : String
  m_lookup_type : LookupType
  m_sort_direction : SortDirectionType
  m_search_key_expressions : List Expr
  m_end_expression : Option Expr
  m_initial_expression : Option Expr
  m_skip_null_predicate : Option Expr

/-- Modelled from the spec: what `IndexScanPlanNode::debugInfo` calls and whose code
is not among the sources: the rendering of the base class, the text `operator<<`
gives for a lookup type and for a sort direction, the formatted dump
`expression->debug(spacer)`, and `getPredicate()`, the post-scan predicate. -/
structure DebugCollaborators (Expr LookupType Scan : Type) where
  scanDebugInfo : Scan → String → String
  lookupTypeText : LookupType → String
  sortDirectionText : SortDirectionType → String
  debug : Expr → String → String
  getPredicate : Scan → Option Expr

/-- The text streamed for an expression slot after its label: a line break and the
dump when the pointer is not null, `<NULL>` otherwise (source lines 68-72, 75-79 and
82-86). -/
def debugSlot {Expr LookupType Scan : Type} (c : DebugCollaborators Expr LookupType Scan)
    (spacer : String) : Option Expr → String
  | some e => "\n" ++ c.debug e spacer
  | none => "<NULL>\n"

/-- The function `IndexScanPlanNode::debugInfo`: the contents of `buffer` after the
successive `<<`. -/
def IndexScanPlanNode.debugInfo {Expr LookupType Scan : Type}
    (c : DebugCollaborators Expr LookupType Scan)
    (node : IndexScanPlanNode Expr LookupType Scan) (spacer : String) : String :=
  c.scanDebugInfo node.scan spacer
    ++ (spacer ++ "TargetIndexName[" ++ node.m_target_index_name ++ "]\n")
    ++ (spacer ++ "IndexLookupType[" ++ c.lookupTypeText node.m_lookup_type ++ "]\n")
    ++ (spacer ++ "SortDirection[" ++ c.sortDirectionText node.m_sort_direction ++ "]\n")
    ++ (spacer ++ "SearchKey Expressions:\n")
    ++ String.join (node.m_search_key_expressions.map (fun e => c.debug e spacer))
    ++ (spacer ++ "End Expression: ") ++ debugSlot c spacer node.m_end_expression
    ++ (spacer ++ "Skip Null Expression: ") ++ debugSlot c spacer node.m_skip_null_predicate
    ++ (spacer ++ "Post-Scan Expression: ") ++ debugSlot c spacer (c.getPredicate node.scan)

/-- The text `part` occurs in `text`. -/
def textContains (text part : String) : Prop := part.data <:+: text.data

instance (text part : String) : Decidable (textContains text part) :=
  inferInstanceAs (Decidable (part.data <:+: text.data))

/-- Example rendering used to instantiate the statements: expressions are named, the
dump of an expression is the spacer, its name in angle brackets and a line break;
lookup types are given by their text; the base class renders nothing and holds the post-scan
predicate. -/
def exampleDebug : DebugCollaborators String String (Option String) where
  scanDebugInfo := fun _ _ => ""
  lookupTypeText := fun l => l
  sortDirectionText := fun d =>
    match d with
    | SORT_DIRECTION_TYPE_INVALID => "0"
    | SORT_DIRECTION_TYPE_ASC => "1"
    | SORT_DIRECTION_TYPE_DESC => "2"
  debug := fun e spacer => spacer ++ "<" ++ e ++ ">\n"
  getPredicate := fun scan => scan

/-- An index-scan node on which every expression is present. -/
def exampleScanNode : IndexScanPlanNode String String (Option String) where
  scan := some "post"
  m_target_index_name := "IDX"
  m_lookup_type := "3"
  m_sort_direction := SORT_DIRECTION_TYPE_ASC
  m_search_key_expressions := ["key0", "key1"]
  m_end_expression := some "end"
  m_initial_expression := some "INIT#"
  m_skip_null_predicate := some "skipnull"

/-- Modelled from the spec: a value held under a key of the plan configuration object
(`PlannerDomValue`, whose code is not among the sources): a string, the serialized
form of one expression, or an array of serialized expressions. -/
inductive PlannerDomField (Json : Type) where
  | str (s : String)
  | expression (json : Json)
  | array (items : List Json)

/-- Modelled from the spec: the plan configuration object, "a structured, named-key
object per plan node": the keys with their values. -/
abbrev PlannerDomValue (Json : Type) := List (String × PlannerDomField Json)

/-- Modelled from the spec: what `IndexScanPlanNode::loadFromJSONObject` calls and
whose code is not among the sources: the decoding of the base class
`AbstractScanPlanNode::loadFromJSONObject`, `stringToIndexLookup`,
`stringToSortDirection`, and the building of an expression from its serialized
form, which fails on a malformed one. -/
structure DecodeCollaborators (Json Expr LookupType Scan : Type) where
  scanLoadFromJSONObject : PlannerDomValue Json → Except String Scan
  stringToIndexLookup : String → LookupType
  stringToSortDirection : String → SortDirectionType
  buildExpressionTree : Json → Except String Expr

/-- Modelled from the spec: `obj.valueForKey(key).asStr()` for a required key; a
missing key or a value that is not a string is an error. -/
def valueForKeyAsStr {Json : Type} (obj : PlannerDomValue Json) (key : String) :
    Except String String :=
  match obj.lookup key with
  | some (.str s) => .ok s
  | _ => .error key

/-- Modelled from the spec: `loadExpressionFromJSONObject(label, obj)`, "absent
optional expression keys must decode to no expression rather than error": `none`
when the key is absent, the built expression when it is present. -/
def loadExpressionFromJSONObject {Json Expr LookupType Scan : Type}
    (c : DecodeCollaborators Json Expr LookupType Scan) (label : String)
    (obj : PlannerDomValue Json) : Except String (Option Expr) :=
  match obj.lookup label with
  | none => .ok none
  | some (.expression json) =>
    match c.buildExpressionTree json with
    | .ok e => .ok (some e)
    | .error err => .error err
  | some _ => .error label

/-- Builds the expressions of an array in order; the first malformed one is the
error. -/
def buildExpressions {Json Expr LookupType Scan : Type}
    (c : DecodeCollaborators Json Expr LookupType Scan) : List Json → Except String (List Expr)
  | [] => .ok []
  | json :: rest =>
    match c.buildExpressionTree json with
    | .error err => .error err
    | .ok e =>
      match buildExpressions c rest with
      | .error err => .error err
      | .ok es => .ok (e :: es)

/-- Modelled from the spec: `loadExpressionsFromJSONObject(out, label, obj)` for the
required key `SEARCHKEY_EXPRESSIONS`: the expressions of the array under the key,
in order. -/
def loadExpressionsFromJSONObject {Json Expr LookupType Scan : Type}
    (c : DecodeCollaborators Json Expr LookupType Scan) (label : String)
    (obj : PlannerDomValue Json) : Except String (List Expr) :=
  match obj.lookup label with
  | some (.array items) => buildExpressions c items
  | _ => .error label

/-- The function `IndexScanPlanNode::loadFromJSONObject`: the base class is decoded
first, then each member is read from its named key, in the order of the source; an
exception thrown on the way is the `error` case. -/
def IndexScanPlanNode.loadFromJSONObject {Json Expr LookupType Scan : Type}
    (c : DecodeCollaborators Json Expr LookupType Scan) (obj : PlannerDomValue Json) :
    Except String (IndexScanPlanNode Expr LookupType Scan) := do
  let scan ← c.scanLoadFromJSONObject obj
  let lookupTypeString ← valueForKeyAsStr obj "LOOKUP_TYPE"
  let m_lookup_type := c.stringToIndexLookup lookupTypeString
  let sortDirectionString ← valueForKeyAsStr obj "SORT_DIRECTION"
  let m_sort_direction := c.stringToSortDirection sortDirectionString
  let m_target_index_name ← valueForKeyAsStr obj "TARGET_INDEX_NAME"
  let m_end_expression ← loadExpressionFromJSONObject c "END_EXPRESSION" obj
  let m_initial_expression ← loadExpressionFromJSONObject c "INITIAL_EXPRESSION" obj
  let m_skip_null_predicate ← loadExpressionFromJSONObject c "SKIP_NULL_PREDICATE" obj
  let m_search_key_expressions ← loadExpressionsFromJSONObject c "SEARCHKEY_EXPRESSIONS" obj
  pure { scan, m_target_index_name, m_lookup_type, m_sort_direction,
         m_search_key_expressions, m_end_expression, m_initial_expression,
         m_skip_null_predicate }

/-- The configuration object without the key `key`. -/
def withoutKey {Json : Type} (key : String) (obj : PlannerDomValue Json) : PlannerDomValue Json :=
  obj.filter (fun kv => kv.1 != key)

/-- The configuration object `obj` with the chosen ones of the three optional keys
left out. -/
def withoutOptionalKeys {Json : Type} (noEnd noInitial noSkipNull : Bool)
    (obj : PlannerDomValue Json) : PlannerDomValue Json :=
  let o1 := if noEnd then withoutKey "END_EXPRESSION" obj else obj
  let o2 := if noInitial then withoutKey "INITIAL_EXPRESSION" o1 else o1
  if noSkipNull then withoutKey "SKIP_NULL_PREDICATE" o2 else o2

/-- Example decoding collaborators: a serialized expression is its name, every name
but the empty one builds, the base class keeps the text under `PREDICATE`. -/
def exampleDecode : DecodeCollaborators String String String (Option String) where
  scanLoadFromJSONObject := fun obj =>
    match obj.lookup "PREDICATE" with
    | some (.expression json) => .ok (some json)
    | _ => .ok none
  stringToIndexLookup := fun s => s
  stringToSortDirection := fun s =>
    if s = "ASC" then SORT_DIRECTION_TYPE_ASC
    else if s = "DESC" then SORT_DIRECTION_TYPE_DESC
    else SORT_DIRECTION_TYPE_INVALID
  buildExpressionTree := fun json => if json = "" then .error "malformed" else .ok json

/-- A configuration object with every key. -/
def exampleConfig : PlannerDomValue String :=
  [("LOOKUP_TYPE", .str "GTE"), ("SORT_DIRECTION", .str "ASC"),
   ("TARGET_INDEX_NAME", .str "IDX"), ("END_EXPRESSION", .expression "end"),
   ("INITIAL_EXPRESSION", .expression "initial"),
   ("SKIP_NULL_PREDICATE", .expression "skipnull"),
   ("SEARCHKEY_EXPRESSIONS", .array ["key0", "key1"])]

/-! ## Notions used in the statements -/

/-- A consistent three-way comparison: zero on equal arguments, sign-antisymmetric
(`a` is below `b` exactly when `b` is above `a`), and transitive. -/
structure ConsistentCompare {Value : Type} (compare : Value → Value → Int) : Prop where
  refl : ∀ a, compare a a = 0
  antisymm : ∀ a b, compare a b < 0 ↔ 0 < compare b a
  trans : ∀ a b c, compare a b ≤ 0 → compare b c ≤ 0 → compare a c ≤ 0

/-- Every direction is ascending or descending. -/
def ValidDirections (dirs : List SortDirectionType) : Prop :=
  ∀ d ∈ dirs, d = SORT_DIRECTION_TYPE_ASC ∨ d = SORT_DIRECTION_TYPE_DESC

/-- The tuples the unloading loop emits from the remaining sorted tuples `xs`
when its counters stand at `tuple_ctr`, `tuple_skipped`: the closed form that
`unloadLoop` is proved equal to. -/
def emitted {Tuple : Type} (limit offset : Int) (xs : List Tuple)
    (tuple_ctr tuple_skipped : Int) : List Tuple :=
  if limit < 0 then xs.drop (offset - tuple_skipped).toNat
  else (xs.drop (offset - tuple_skipped).toNat).take (max 1 (limit - tuple_ctr).toNat)

/-- The order by keys between an earlier tuple `a` and a later tuple `b`: on
every key `n` such that the two tie on all keys before it, `a` is not above `b`
when the key is ascending and not below `b` when it is descending. -/
def OrderedByKeys {Tuple Value : Type} (compare : Value → Value → Int)
    (keys : List (AbstractExpression Tuple Value)) (dirs : List SortDirectionType)
    (a b : Tuple) : Prop :=
  ∀ (n : Nat) (k : AbstractExpression Tuple Value) (d : SortDirectionType),
    keys[n]? = some k → dirs[n]? = some d →
    (∀ (m : Nat) (k' : AbstractExpression Tuple Value),
      m < n → keys[m]? = some k' → compare (k' a) (k' b) = 0) →
    (d = SORT_DIRECTION_TYPE_ASC → compare (k a) (k b) ≤ 0) ∧
    (d = SORT_DIRECTION_TYPE_DESC → 0 ≤ compare (k a) (k b))

/-- Integer values compared as `NValue::compare` compares integers: negative,
zero or positive. Used to instantiate the statements. -/
def intCompare (a b : Int) : Int := a - b

/-- Lines 133-155 of `UpsertExecutor::p_execute` for one row: the lookup, then the
insert or the update; `none` when the table rejects the operation. -/
def PersistentTable.upsertRow {Tuple Key Value : Type} [DecidableEq Key]
    (env : Collaborators Tuple Key Value) (table : PersistentTable Tuple)
    (t : Tuple) : Option (PersistentTable Tuple) :=
  match table.lookupTuple env t with
  | none => table.insertTuple env t
  | some existsTuple => table.updateTupleWithSpecificIndexes env existsTuple t

/-- Example collaborators used to instantiate the statements: a row is a pair
(primary key, payload) of integers, column 0 is the key column and any other
column the payload, even partition values are local to the site, the table
holds at most three rows and takes every update. -/
def exampleEnv (assertsEnabled : Bool) : Collaborators (Int × Int) Int Int where
  primaryKey := Prod.fst
  getNValue := fun t c => if c = 0 then t.1 else t.2
  isLocalSite := fun v => decide (v % 2 = 0)
  acceptsInsert := fun rows _ => decide (rows.length < 3)
  acceptsUpdate := fun _ _ _ => true
  scanLookup := fun _ _ => none
  assertsEnabled := assertsEnabled

/-- Example collaborators for rows (primary key, text payload) on a table that is
not partitioned and takes every insert and update. -/
def exampleTextEnv (assertsEnabled : Bool) : Collaborators (Int × String) Int Int where
  primaryKey := Prod.fst
  getNValue := fun t _ => t.1
  isLocalSite := fun _ => true
  acceptsInsert := fun _ _ => true
  acceptsUpdate := fun _ _ _ => true
  scanLookup := fun _ _ => none
  assertsEnabled := assertsEnabled

/-- What one key says about two tuples, in the words of the specification: the values
tie, or the key decides (with the answer), or its direction is not recognised. -/
inductive KeyVerdict where
  | tie
  | decides (taFirst : Bool)
  | unrecognised
  deriving DecidableEq

/-- The verdict of the key `k` with direction `d` on `(ta, tb)`: under ascending the
lower value sorts first, under descending the higher value sorts first, equal values
tie; any other direction is not recognised. -/
def keyVerdict {Tuple Value : Type} (compare : Value → Value → Int)
    (ta tb : Tuple) (kd : AbstractExpression Tuple Value × SortDirectionType) : KeyVerdict :=
  let cmp := compare (kd.1 ta) (kd.1 tb)
  match kd.2 with
  | SORT_DIRECTION_TYPE_ASC => if cmp = 0 then .tie else .decides (decide (cmp < 0))
  | SORT_DIRECTION_TYPE_DESC => if cmp = 0 then .tie else .decides (decide (cmp > 0))
  | SORT_DIRECTION_TYPE_INVALID => .unrecognised

/-- The lexicographic reference for the comparer, written from the specification and
not from the source: scanning the key/direction pairs in order, the first key that
does not tie settles the comparison (its answer, or the fatal error when its
direction is not recognised); when every key ties the answer is `false`. -/
def lexicographicReference {Tuple Value : Type} (compare : Value → Value → Int)
    (keys : List (AbstractExpression Tuple Value)) (dirs : List SortDirectionType)
    (ta tb : Tuple) : Except SerializableEEException Bool :=
  match ((keys.zip dirs).map (keyVerdict compare ta tb)).find? (fun v => decide (v ≠ .tie)) with
  | some (.decides taFirst) => .ok taFirst
  | some .unrecognised => .error sortInvalidException
  | _ => .ok false

/-- The last input row that gets past the partition check and has the primary key
`key`, if there is one. -/
def lastProcessedWithKey {Tuple Key Value : Type} [DecidableEq Key]
    (env : Collaborators Tuple Key Value) (exec : UpsertExecutor) (key : Key)
    (input : List Tuple) : Option Tuple :=
  ((input.filter (UpsertExecutor.isProcessed env exec)).filter
    (fun t => decide (env.primaryKey t = key))).getLast?

/-- The table `table₁` is what the insert-or-update of the row `t` makes of `table`:
the lookup found no row and `insertTuple` succeeded with `table₁`, or the lookup found
a row and `updateTupleWithSpecificIndexes` succeeded on it with `table₁`. -/
def InsertedOrUpdated {Tuple Key Value : Type} [DecidableEq Key]
    (env : Collaborators Tuple Key Value) (table : PersistentTable Tuple) (t : Tuple)
    (table₁ : PersistentTable Tuple) : Prop :=
  (table.lookupTuple env t = none ∧ table.insertTuple env t = some table₁) ∨
  (∃ existsTuple, table.lookupTuple env t = some existsTuple ∧
    table.updateTupleWithSpecificIndexes env existsTuple t = some table₁)

/-- The table `table'` is reached from `table` by a successful insert or update of
each of the rows, one after the other in their order. -/
def InsertedOrUpdatedInOrder {Tuple Key Value : Type} [DecidableEq Key]
    (env : Collaborators Tuple Key Value) :
    List Tuple → PersistentTable Tuple → PersistentTable Tuple → Prop
  | [], table, table' => table' = table
  | t :: rest, table, table' =>
    ∃ table₁, InsertedOrUpdated env table t table₁ ∧
      InsertedOrUpdatedInOrder env rest table₁ table'

/-- The tuples `ta` and `tb` tie on every key before position `n`. -/
def TiesBefore {Tuple Value : Type} (compare : Value → Value → Int)
    (keys : List (AbstractExpression Tuple Value)) (n : Nat) (ta tb : Tuple) : Prop :=
  ∀ (m : Nat) (k : AbstractExpression Tuple Value),
    m < n → keys[m]? = some k → compare (k ta) (k tb) = 0

/-! ## Properties of the comparer -/

section comparer
variable {Tuple Value : Type} {compare : Value → Value → Int}

theorem ConsistentCompare.nonpos_iff (h : ConsistentCompare compare) (a b : Value) :
    compare a b ≤ 0 ↔ 0 ≤ compare b a := by
  have h1 := h.antisymm a b
  have h2 := h.antisymm b a
  constructor <;> intro h3 <;> omega

theorem ConsistentCompare.eq_zero_iff (h : ConsistentCompare compare) (a b : Value) :
    compare a b = 0 ↔ compare b a = 0 := by
  have h1 := h.antisymm a b
  have h2 := h.antisymm b a
  constructor <;> intro h3 <;> omega

theorem ConsistentCompare.lt_of_lt_of_le (h : ConsistentCompare compare) {a b c : Value}
    (hab : compare a b < 0) (hbc : compare b c ≤ 0) : compare a c < 0 := by
  by_contra hac
  have hca : compare c a ≤ 0 := (h.nonpos_iff c a).2 (by omega)
  have hba := h.trans b c a hbc hca
  have := (h.antisymm a b).1 hab
  omega

theorem ConsistentCompare.lt_of_le_of_lt (h : ConsistentCompare compare) {a b c : Value}
    (hab : compare a b ≤ 0) (hbc : compare b c < 0) : compare a c < 0 := by
  by_contra hac
  have hca : compare c a ≤ 0 := (h.nonpos_iff c a).2 (by omega)
  have hcb := h.trans c a b hca hab
  have := (h.antisymm b c).1 hbc
  omega

theorem TupleComparer_nil (dirs : List SortDirectionType) (ta tb : Tuple) :
    TupleComparer compare ([] : List (AbstractExpression Tuple Value)) dirs ta tb = .ok false := by
  cases dirs <;> rfl

theorem TupleComparer_asc (k : AbstractExpression Tuple Value) (keys) (dirs) (ta tb : Tuple) :
    TupleComparer compare (k :: keys) (SORT_DIRECTION_TYPE_ASC :: dirs) ta tb =
      if compare (k ta) (k tb) < 0 then .ok true
      else if compare (k ta) (k tb) > 0 then .ok false
      else TupleComparer compare keys dirs ta tb := rfl

theorem TupleComparer_desc (k : AbstractExpression Tuple Value) (keys) (dirs) (ta tb : Tuple) :
    TupleComparer compare (k :: keys) (SORT_DIRECTION_TYPE_DESC :: dirs) ta tb =
      if compare (k ta) (k tb) < 0 then .ok false
      else if compare (k ta) (k tb) > 0 then .ok true
      else TupleComparer compare keys dirs ta tb := rfl

theorem TupleComparer_invalid (k : AbstractExpression Tuple Value) (keys) (dirs) (ta tb : Tuple) :
    TupleComparer compare (k :: keys) (SORT_DIRECTION_TYPE_INVALID :: dirs) ta tb =
      .error sortInvalidException := rfl

/-- With valid directions the comparer returns. -/
theorem TupleComparer_returns (keys : List (AbstractExpression Tuple Value)) :
    ∀ (dirs : List SortDirectionType), keys.length = dirs.length → ValidDirections dirs →
    ∀ ta tb, ∃ r, TupleComparer compare keys dirs ta tb = .ok r := by
  induction keys with
  | nil => intro dirs _ _ ta tb; exact ⟨false, TupleComparer_nil dirs ta tb⟩
  | cons k keys ih =>
    intro dirs hlen hv ta tb
    cases dirs with
    | nil => simp at hlen
    | cons d dirs =>
      have hv' : ValidDirections dirs := fun x hx => hv x (List.mem_cons_of_mem _ hx)
      have hlen' : keys.length = dirs.length := by simpa using hlen
      obtain ⟨r, hr⟩ := ih dirs hlen' hv' ta tb
      rcases hv d (List.mem_cons_self _ _) with rfl | rfl
      · rw [TupleComparer_asc]; split_ifs
        · exact ⟨true, rfl⟩
        · exact ⟨false, rfl⟩
        · exact ⟨r, hr⟩
      · rw [TupleComparer_desc]; split_ifs
        · exact ⟨false, rfl⟩
        · exact ⟨true, rfl⟩
        · exact ⟨r, hr⟩

/-- The comparer never places a tuple strictly before itself. -/
theorem TupleComparer_irrefl (hc : ConsistentCompare compare)
    (keys : List (AbstractExpression Tuple Value)) :
    ∀ (dirs : List SortDirectionType), keys.length = dirs.length → ValidDirections dirs →
    ∀ ta, TupleComparer compare keys dirs ta ta = .ok false := by
  induction keys with
  | nil => intro dirs _ _ ta; exact TupleComparer_nil dirs ta ta
  | cons k keys ih =>
    intro dirs hlen hv ta
    cases dirs with
    | nil => simp at hlen
    | cons d dirs =>
      have hv' : ValidDirections dirs := fun x hx => hv x (List.mem_cons_of_mem _ hx)
      have hlen' : keys.length = dirs.length := by simpa using hlen
      have h0 := hc.refl (k ta)
      rcases hv d (List.mem_cons_self _ _) with rfl | rfl
      · rw [TupleComparer_asc]; simp [h0, ih dirs hlen' hv' ta]
      · rw [TupleComparer_desc]; simp [h0, ih dirs hlen' hv' ta]

/-- Asymmetry: a tuple placed strictly before another is not placed after it. -/
theorem TupleComparer_asymm (hc : ConsistentCompare compare)
    (keys : List (AbstractExpression Tuple Value)) :
    ∀ (dirs : List SortDirectionType), keys.length = dirs.length → ValidDirections dirs →
    ∀ ta tb, TupleComparer compare keys dirs ta tb = .ok true →
      TupleComparer compare keys dirs tb ta = .ok false := by
  induction keys with
  | nil => intro dirs _ _ ta tb _; exact TupleComparer_nil dirs tb ta
  | cons k keys ih =>
    intro dirs hlen hv ta tb
    cases dirs with
    | nil => simp at hlen
    | cons d dirs =>
      have hv' : ValidDirections dirs := fun x hx => hv x (List.mem_cons_of_mem _ hx)
      have hlen' : keys.length = dirs.length := by simpa using hlen
      have h1 := hc.antisymm (k ta) (k tb)
      have h2 := hc.antisymm (k tb) (k ta)
      have ih' := ih dirs hlen' hv' ta tb
      rcases hv d (List.mem_cons_self _ _) with rfl | rfl
      · rw [TupleComparer_asc, TupleComparer_asc]
        split_ifs <;> first | (intro h; simp at h; done) | (intro _; rfl) | exact ih' | omega
      · rw [TupleComparer_desc, TupleComparer_desc]
        split_ifs <;> first | (intro h; simp at h; done) | (intro _; rfl) | exact ih' | omega

/-- Transitivity of "is not placed strictly after". -/
theorem TupleComparer_trans (hc : ConsistentCompare compare)
    (keys : List (AbstractExpression Tuple Value)) :
    ∀ (dirs : List SortDirectionType), keys.length = dirs.length → ValidDirections dirs →
    ∀ ta tb tc, TupleComparer compare keys dirs tb ta = .ok false →
      TupleComparer compare keys dirs tc tb = .ok false →
      TupleComparer compare keys dirs tc ta = .ok false := by
  induction keys with
  | nil => intro dirs _ _ ta tb tc _ _; exact TupleComparer_nil dirs tc ta
  | cons k keys ih =>
    intro dirs hlen hv ta tb tc
    cases dirs with
    | nil => simp at hlen
    | cons d dirs =>
      have hv' : ValidDirections dirs := fun x hx => hv x (List.mem_cons_of_mem _ hx)
      have hlen' : keys.length = dirs.length := by simpa using hlen
      have ih' := ih dirs hlen' hv' ta tb tc
      have a1 := hc.antisymm (k ta) (k tb)
      have a2 := hc.antisymm (k tb) (k ta)
      have a3 := hc.antisymm (k tb) (k tc)
      have a4 := hc.antisymm (k tc) (k tb)
      have a5 := hc.antisymm (k ta) (k tc)
      have a6 := hc.antisymm (k tc) (k ta)
      have t1 := hc.trans (k ta) (k tb) (k tc)
      have t2 := hc.trans (k tc) (k tb) (k ta)
      have t3 := hc.trans (k tb) (k tc) (k ta)
      have t4 := hc.trans (k tc) (k ta) (k tb)
      have t5 := hc.trans (k tb) (k ta) (k tc)
      have t6 := hc.trans (k ta) (k tc) (k tb)
      rcases hv d (List.mem_cons_self _ _) with rfl | rfl
      · rw [TupleComparer_asc, TupleComparer_asc, TupleComparer_asc]
        split_ifs <;> first | (intro h; simp at h; done) | (intro _ h; simp at h; done) | (intro _ _; rfl) | exact ih' | omega
      · rw [TupleComparer_desc, TupleComparer_desc, TupleComparer_desc]
        split_ifs <;> first | (intro h; simp at h; done) | (intro _ h; simp at h; done) | (intro _ _; rfl) | exact ih' | omega

end comparer

/-! ## Properties of the sort and of the unloading loop -/

section sorting
variable {α ε : Type} {comp : α → α → Except ε Bool}

theorem sortInsert_sorted
    (hret : ∀ a b, ∃ r, comp a b = .ok r)
    (hasym : ∀ a b, comp a b = .ok true → comp b a = .ok false)
    (htrans : ∀ a b c, comp b a = .ok false → comp c b = .ok false → comp c a = .ok false)
    (x : α) (acc : List α) (hacc : acc.Pairwise (fun a b => comp b a = .ok false)) :
    ∃ zs, sortInsert comp x acc = .ok zs ∧ zs.Perm (x :: acc) ∧
      zs.Pairwise (fun a b => comp b a = .ok false) := by
  induction acc with
  | nil => exact ⟨[x], rfl, List.Perm.refl _, List.pairwise_singleton _ _⟩
  | cons y ys ih =>
    obtain ⟨hy, hys⟩ := List.pairwise_cons.1 hacc
    obtain ⟨r, hr⟩ := hret x y
    cases r with
    | true =>
      refine ⟨x :: y :: ys, by simp [sortInsert, hr], List.Perm.refl _, ?_⟩
      refine List.Pairwise.cons ?_ hacc
      intro z hz
      have hxy : comp y x = .ok false := hasym x y hr
      rcases List.mem_cons.1 hz with rfl | hz
      · exact hxy
      · exact htrans x y z hxy (hy z hz)
    | false =>
      obtain ⟨zs, hzs, hperm, hsorted⟩ := ih hys
      refine ⟨y :: zs, by simp [sortInsert, hr, hzs], ?_, ?_⟩
      · exact (List.Perm.cons y hperm).trans (List.Perm.swap x y ys)
      · refine List.Pairwise.cons ?_ hsorted
        intro z hz
        rcases List.mem_cons.1 (hperm.subset hz) with rfl | hz
        · exact hr
        · exact hy z hz

theorem sortLoop_sorted
    (hret : ∀ a b, ∃ r, comp a b = .ok r)
    (hasym : ∀ a b, comp a b = .ok true → comp b a = .ok false)
    (htrans : ∀ a b c, comp b a = .ok false → comp c b = .ok false → comp c a = .ok false)
    (xs : List α) :
    ∀ acc : List α, acc.Pairwise (fun a b => comp b a = .ok false) →
    ∃ zs, sortLoop comp acc xs = .ok zs ∧ zs.Perm (acc ++ xs) ∧
      zs.Pairwise (fun a b => comp b a = .ok false) := by
  induction xs with
  | nil => intro acc hacc; exact ⟨acc, rfl, by simp, hacc⟩
  | cons x xs ih =>
    intro acc hacc
    obtain ⟨acc', h1, hperm1, hs1⟩ := sortInsert_sorted hret hasym htrans x acc hacc
    obtain ⟨zs, h2, hperm2, hs2⟩ := ih acc' hs1
    refine ⟨zs, by simp [sortLoop, h1, h2], ?_, hs2⟩
    refine hperm2.trans ?_
    refine (List.Perm.append_right xs hperm1).trans ?_
    simpa using List.perm_middle.symm

theorem std_sort_sorted
    (hret : ∀ a b, ∃ r, comp a b = .ok r)
    (hasym : ∀ a b, comp a b = .ok true → comp b a = .ok false)
    (htrans : ∀ a b c, comp b a = .ok false → comp c b = .ok false → comp c a = .ok false)
    (xs : List α) :
    ∃ zs, std_sort comp xs = .ok zs ∧ zs.Perm xs ∧
      zs.Pairwise (fun a b => comp b a = .ok false) := by
  simpa [std_sort] using sortLoop_sorted hret hasym htrans xs [] List.Pairwise.nil

end sorting

section unload
variable {Tuple : Type}

theorem unloadLoop_eq (limit offset : Int) (xs : List Tuple) :
    ∀ (tuple_ctr tuple_skipped : Int) (res : OrderByResult Tuple),
    unloadLoop limit offset xs tuple_ctr tuple_skipped res =
      ⟨res.output ++ emitted limit offset xs tuple_ctr tuple_skipped,
       res.progress + (emitted limit offset xs tuple_ctr tuple_skipped).length⟩ := by
  induction xs with
  | nil => intro c s res; simp [unloadLoop, emitted]
  | cons t rest ih =>
    intro c s res
    unfold unloadLoop
    by_cases hs : s < offset
    · rw [if_pos hs, ih]
      have hd : (offset - s).toNat = (offset - (s + 1)).toNat + 1 := by omega
      simp [emitted, hd]
    · rw [if_neg hs]
      have hd : (offset - s).toNat = 0 := by omega
      by_cases hl : limit ≥ 0
      · simp only [hl, if_true]
        by_cases hc : c + 1 ≥ limit
        · rw [if_pos hc]
          have h1 : max 1 (limit - c).toNat = 1 := by omega
          have hl' : ¬ limit < 0 := by omega
          simp [emitted, hd, h1, hl']
        · rw [if_neg hc, ih]
          have h1 : max 1 (limit - c).toNat = max 1 (limit - (c + 1)).toNat + 1 := by omega
          have hs' : (offset - s).toNat = 0 := hd
          have hl' : ¬ limit < 0 := by omega
          simp [emitted, hd, h1, hl', List.take_succ_cons]
          omega
      · rw [if_neg hl, ih]
        have hl' : limit < 0 := by omega
        simp [emitted, hd, hl']
        omega

end unload

section throwing
variable {Tuple Value : Type} {compare : Value → Value → Int}

/-- The comparer throws when it reaches an unrecognised direction with all
earlier keys tying. -/
theorem TupleComparer_throws (keys : List (AbstractExpression Tuple Value)) :
    ∀ (dirs : List SortDirectionType) (n : Nat) (ta tb : Tuple),
    n < keys.length → dirs[n]? = some SORT_DIRECTION_TYPE_INVALID →
    (∀ (m : Nat) (k : AbstractExpression Tuple Value),
      m < n → keys[m]? = some k → compare (k ta) (k tb) = 0) →
    TupleComparer compare keys dirs ta tb = .error sortInvalidException := by
  induction keys with
  | nil => intro dirs n ta tb hn; simp at hn
  | cons k0 keys ih =>
    intro dirs n ta tb hn hd hties
    cases dirs with
    | nil => rfl
    | cons d0 dirs =>
      cases n with
      | zero =>
        simp at hd
        subst hd
        rfl
      | succ n =>
        have h0 : compare (k0 ta) (k0 tb) = 0 := hties 0 k0 (Nat.succ_pos n) (by simp)
        have hrec := ih dirs n ta tb (by simpa using hn) (by simpa using hd)
          (fun m k hm hk => hties (m + 1) k (Nat.succ_lt_succ hm) (by simpa using hk))
        cases d0 with
        | SORT_DIRECTION_TYPE_INVALID => rfl
        | SORT_DIRECTION_TYPE_ASC => simp [TupleComparer_asc, h0, hrec]
        | SORT_DIRECTION_TYPE_DESC => simp [TupleComparer_desc, h0, hrec]

theorem sortInsert_throws {α ε : Type} {comp : α → α → Except ε Bool} {e : ε} (x : α)
    (acc : List α) (hne : acc ≠ []) (h : ∀ y ∈ acc, comp x y = .error e) :
    sortInsert comp x acc = .error e := by
  cases acc with
  | nil => exact absurd rfl hne
  | cons y ys => simp [sortInsert, h y (List.mem_cons_self _ _)]

theorem sortLoop_throws {α ε : Type} {comp : α → α → Except ε Bool} {e : ε} (xs : List α) :
    ∀ (acc : List α), acc ≠ [] → xs ≠ [] → (∀ x ∈ xs, ∀ y ∈ acc, comp x y = .error e) →
    sortLoop comp acc xs = .error e := by
  cases xs with
  | nil => intro acc _ h; exact absurd rfl h
  | cons x xs =>
    intro acc hacc _ h
    simp [sortLoop, sortInsert_throws x acc hacc (h x (List.mem_cons_self _ _))]

theorem std_sort_throws {α ε : Type} {comp : α → α → Except ε Bool} {e : ε} (xs : List α)
    (hlen : 2 ≤ xs.length) (h : ∀ x ∈ xs, ∀ y ∈ xs, comp x y = .error e) :
    std_sort comp xs = .error e := by
  match xs, hlen, h with
  | x :: y :: rest, _, h =>
    have hx : sortInsert comp x [] = .ok [x] := rfl
    simp only [std_sort, sortLoop, hx]
    refine sortLoop_throws (y :: rest) [x] (by simp) (by simp) ?_
    intro a ha b hb
    simp at hb; subst hb
    exact h a (List.mem_cons_of_mem _ ha) b (List.mem_cons_self _ _)

end throwing

section sortingPerm
variable {α ε : Type} {comp : α → α → Except ε Bool}

theorem sortInsert_perm (x : α) :
    ∀ (acc zs : List α), sortInsert comp x acc = .ok zs → zs.Perm (x :: acc) := by
  intro acc
  induction acc with
  | nil => intro zs h; simp [sortInsert] at h; subst h; exact List.Perm.refl _
  | cons y ys ih =>
    intro zs h
    unfold sortInsert at h
    split at h
    · cases h
    · cases h; exact List.Perm.refl _
    · split at h
      · cases h
      · rename_i zs' hz
        cases h
        exact (List.Perm.cons y (ih zs' hz)).trans (List.Perm.swap x y ys)

theorem sortLoop_perm (xs : List α) :
    ∀ (acc zs : List α), sortLoop comp acc xs = .ok zs → zs.Perm (acc ++ xs) := by
  induction xs with
  | nil => intro acc zs h; simp [sortLoop] at h; subst h; simp
  | cons x xs ih =>
    intro acc zs h
    unfold sortLoop at h
    split at h
    · cases h
    · rename_i acc' hacc
      refine (ih acc' zs h).trans ?_
      refine (List.Perm.append_right xs (sortInsert_perm x acc acc' hacc)).trans ?_
      simpa using List.perm_middle.symm

/-- Whatever the comparator, a sort that returns has permuted its input. -/
theorem std_sort_perm (xs zs : List α) (h : std_sort comp xs = .ok zs) : zs.Perm xs := by
  simpa using sortLoop_perm xs [] zs h

end sortingPerm

section sortingReturns
variable {α ε : Type} {comp : α → α → Except ε Bool}

theorem sortInsert_returns (hret : ∀ a b, ∃ r, comp a b = .ok r) (x : α) (acc : List α) :
    ∃ zs, sortInsert comp x acc = .ok zs := by
  induction acc with
  | nil => exact ⟨[x], rfl⟩
  | cons y ys ih =>
    obtain ⟨r, hr⟩ := hret x y
    obtain ⟨zs, hzs⟩ := ih
    cases r with
    | true => exact ⟨x :: y :: ys, by simp [sortInsert, hr]⟩
    | false => exact ⟨y :: zs, by simp [sortInsert, hr, hzs]⟩

theorem sortLoop_returns (hret : ∀ a b, ∃ r, comp a b = .ok r) (xs : List α) :
    ∀ acc : List α, ∃ zs, sortLoop comp acc xs = .ok zs := by
  induction xs with
  | nil => intro acc; exact ⟨acc, rfl⟩
  | cons x xs ih =>
    intro acc
    obtain ⟨acc', h1⟩ := sortInsert_returns hret x acc
    obtain ⟨zs, h2⟩ := ih acc'
    exact ⟨zs, by simp [sortLoop, h1, h2]⟩

/-- A comparator that always answers lets the sort return. -/
theorem std_sort_returns (hret : ∀ a b, ∃ r, comp a b = .ok r) (xs : List α) :
    ∃ zs, std_sort comp xs = .ok zs :=
  sortLoop_returns hret xs []

end sortingReturns

section unloadResult
variable {Tuple Value : Type} {compare : Value → Value → Int}

/-- When `OrderByExecutor::p_execute` returns, its output is the closed form `emitted`
of the sorted tuples, and one progress tick was made per tuple read and per tuple
emitted. -/
theorem p_execute_eq_emitted (keys : List (AbstractExpression Tuple Value))
    (dirs : List SortDirectionType) (limit offset : Int) (input : List Tuple)
    (res : OrderByResult Tuple)
    (h : OrderByExecutor.p_execute compare keys dirs limit offset input = .ok res) :
    ∃ xs, std_sort (TupleComparer compare keys dirs) input = .ok xs ∧ xs.Perm input ∧
      res.output = emitted limit offset xs 0 0 ∧
      res.progress = input.length + res.output.length := by
  unfold OrderByExecutor.p_execute at h
  split at h
  · cases h
  · rename_i xs hxs
    cases h
    refine ⟨xs, hxs, std_sort_perm input xs hxs, ?_, ?_⟩
    · rw [unloadLoop_eq]; rfl
    · rw [unloadLoop_eq]; simp

/-- For a limit of at least 1 and an offset of at least 0 the output of a run that
returns has `max(0, min(limit, n - offset))` tuples. -/
theorem p_execute_output_length (keys : List (AbstractExpression Tuple Value))
    (dirs : List SortDirectionType) (limit offset : Int) (input : List Tuple)
    (res : OrderByResult Tuple) (hl : 1 ≤ limit) (ho : 0 ≤ offset)
    (h : OrderByExecutor.p_execute compare keys dirs limit offset input = .ok res) :
    (res.output.length : Int) = max 0 (min limit ((input.length : Int) - offset)) := by
  obtain ⟨xs, -, hperm, hout, -⟩ := p_execute_eq_emitted keys dirs limit offset input res h
  have hlen := hperm.length_eq
  rw [hout]
  unfold emitted
  rw [if_neg (by omega)]
  simp only [List.length_take, List.length_drop, hlen]
  omega

/-- When the sort returns `xs`, `OrderByExecutor::p_execute` returns the closed form
`emitted` of `xs` with one progress tick per tuple read and per tuple emitted. -/
theorem p_execute_of_sort (keys : List (AbstractExpression Tuple Value))
    (dirs : List SortDirectionType) (limit offset : Int) (input xs : List Tuple)
    (hsort : std_sort (TupleComparer compare keys dirs) input = .ok xs) :
    OrderByExecutor.p_execute compare keys dirs limit offset input =
      .ok ⟨emitted limit offset xs 0 0, input.length + (emitted limit offset xs 0 0).length⟩ := by
  simp only [OrderByExecutor.p_execute, hsort, unloadLoop_eq, List.nil_append]

theorem emitted_prefix (limit offset : Int) (xs : List Tuple) :
    emitted limit offset xs 0 0 <+: xs.drop (max offset 0).toNat := by
  have h : (offset - 0).toNat = (max offset 0).toNat := by omega
  unfold emitted
  rw [h]
  split_ifs
  · exact List.prefix_refl _
  · exact List.take_prefix _ _

end unloadResult

section tiesSort
variable {α ε : Type} {comp comp' : α → α → Except ε Bool} {T : α → α → Prop} {e : ε}

theorem sortInsert_eq_of_no_tie (hN : ∀ a b, ¬ T a b → comp a b = comp' a b) (x : α)
    (acc : List α) (h : ∀ y ∈ acc, ¬ T x y) :
    sortInsert comp x acc = sortInsert comp' x acc := by
  induction acc with
  | nil => rfl
  | cons y ys ih =>
    unfold sortInsert
    rw [hN x y (h y (List.mem_cons_self _ _)),
      ih (fun z hz => h z (List.mem_cons_of_mem _ hz))]

theorem sortInsert_tie_throws (hT : ∀ a b, T a b → comp a b = .error e)
    (hN : ∀ a b, ¬ T a b → comp a b = comp' a b)
    (hret : ∀ a b, ∃ r, comp' a b = .ok r)
    (htrans : ∀ a b c, comp' b a = .ok false → comp' c b = .ok false → comp' c a = .ok false)
    (hTf : ∀ a b, T a b → comp' a b = .ok false)
    (x : α) (acc : List α) (hacc : acc.Pairwise (fun a b => comp' b a = .ok false))
    (h : ∃ y ∈ acc, T x y) : sortInsert comp x acc = .error e := by
  induction acc with
  | nil => obtain ⟨y, hy, _⟩ := h; cases hy
  | cons z zs ih =>
    obtain ⟨hz, hzs⟩ := List.pairwise_cons.1 hacc
    unfold sortInsert
    by_cases htz : T x z
    · rw [hT x z htz]
    · rw [hN x z htz]
      obtain ⟨y, hy, hxy⟩ := h
      have hyzs : y ∈ zs := by
        rcases List.mem_cons.1 hy with rfl | hy
        · exact absurd hxy htz
        · exact hy
      obtain ⟨r, hr⟩ := hret x z
      cases r with
      | true =>
        exfalso
        have h1 := htrans z y x (hz y hyzs) (hTf x y hxy)
        rw [hr] at h1
        cases h1
      | false =>
        rw [hr]
        simp only
        rw [ih hzs ⟨y, hyzs, hxy⟩]

theorem sortLoop_eq_of_no_tie (hN : ∀ a b, ¬ T a b → comp a b = comp' a b)
    (hsym : ∀ a b, T a b → T b a) (xs : List α) :
    ∀ acc : List α, (acc ++ xs).Pairwise (fun a b => ¬ T a b) →
      sortLoop comp acc xs = sortLoop comp' acc xs := by
  induction xs with
  | nil => intro acc _; rfl
  | cons x xs ih =>
    intro acc hpw
    have hx : ∀ y ∈ acc, ¬ T x y := by
      intro y hy hxy
      exact (List.pairwise_append.1 hpw).2.2 y hy x (List.mem_cons_self _ _) (hsym x y hxy)
    unfold sortLoop
    rw [sortInsert_eq_of_no_tie hN x acc hx]
    cases hins : sortInsert comp' x acc with
    | error err => rfl
    | ok acc' =>
      simp only
      apply ih
      have hperm : (acc' ++ xs).Perm (acc ++ x :: xs) :=
        (List.Perm.append_right xs (sortInsert_perm x acc acc' hins)).trans
          (by simpa using List.perm_middle.symm)
      exact (hperm.pairwise_iff (fun h1 h2 => h1 (hsym _ _ h2))).2 hpw

theorem sortLoop_tie_throws (hT : ∀ a b, T a b → comp a b = .error e)
    (hN : ∀ a b, ¬ T a b → comp a b = comp' a b)
    (hsym : ∀ a b, T a b → T b a)
    (hret : ∀ a b, ∃ r, comp' a b = .ok r)
    (hasym : ∀ a b, comp' a b = .ok true → comp' b a = .ok false)
    (htrans : ∀ a b c, comp' b a = .ok false → comp' c b = .ok false → comp' c a = .ok false)
    (hTf : ∀ a b, T a b → comp' a b = .ok false) (xs : List α) :
    ∀ acc : List α, acc.Pairwise (fun a b => comp' b a = .ok false) →
      acc.Pairwise (fun a b => ¬ T a b) →
      ¬ (acc ++ xs).Pairwise (fun a b => ¬ T a b) →
      sortLoop comp acc xs = .error e := by
  induction xs with
  | nil => intro acc _ h1 h2; rw [List.append_nil] at h2; exact absurd h1 h2
  | cons x xs ih =>
    intro acc hsorted hno hnot
    unfold sortLoop
    by_cases hex : ∃ y ∈ acc, T x y
    · rw [sortInsert_tie_throws hT hN hret htrans hTf x acc hsorted hex]
    · have hx : ∀ y ∈ acc, ¬ T x y := fun y hy hxy => hex ⟨y, hy, hxy⟩
      rw [sortInsert_eq_of_no_tie hN x acc hx]
      obtain ⟨acc', hins, hperm, hsorted'⟩ := sortInsert_sorted hret hasym htrans x acc hsorted
      rw [hins]
      simp only
      apply ih acc' hsorted'
      · refine (hperm.pairwise_iff (fun h1 h2 => h1 (hsym _ _ h2))).2 ?_
        exact List.pairwise_cons.2 ⟨hx, hno⟩
      · intro hpw
        apply hnot
        have hperm' : (acc' ++ xs).Perm (acc ++ x :: xs) :=
          (List.Perm.append_right xs hperm).trans (by simpa using List.perm_middle.symm)
        exact (hperm'.pairwise_iff (fun h1 h2 => h1 (hsym _ _ h2))).1 hpw

end tiesSort

section tiesComparer
variable {Tuple Value : Type} {compare : Value → Value → Int}

theorem TiesBefore.symm (hc : ConsistentCompare compare)
    {keys : List (AbstractExpression Tuple Value)} {n : Nat} {ta tb : Tuple}
    (h : TiesBefore compare keys n ta tb) : TiesBefore compare keys n tb ta :=
  fun m k hm hk => (hc.eq_zero_iff _ _).1 (h m k hm hk)

theorem TiesBefore_cons (k0 : AbstractExpression Tuple Value)
    (keys : List (AbstractExpression Tuple Value)) (n : Nat) (ta tb : Tuple) :
    TiesBefore compare (k0 :: keys) (n + 1) ta tb ↔
      compare (k0 ta) (k0 tb) = 0 ∧ TiesBefore compare keys n ta tb := by
  constructor
  · intro h
    exact ⟨h 0 k0 (Nat.succ_pos n) (by simp),
      fun m k hm hk => h (m + 1) k (Nat.succ_lt_succ hm) (by simpa using hk)⟩
  · rintro ⟨h0, h⟩ m k hm hk
    cases m with
    | zero => simp at hk; subst hk; exact h0
    | succ m => exact h m k (by omega) (by simpa using hk)

/-- On the keys before `n`, all with a recognised direction, the whole comparer and
the comparer cut down to these keys agree on tuples that do not tie on them, and the
cut-down comparer answers `false` on tuples that tie. -/
theorem TupleComparer_take (keys : List (AbstractExpression Tuple Value)) :
    ∀ (dirs : List SortDirectionType) (n : Nat) (ta tb : Tuple),
    n ≤ keys.length → n ≤ dirs.length →
    (∀ (m : Nat) (d : SortDirectionType), m < n → dirs[m]? = some d →
      d = SORT_DIRECTION_TYPE_ASC ∨ d = SORT_DIRECTION_TYPE_DESC) →
    (¬ TiesBefore compare keys n ta tb →
      TupleComparer compare keys dirs ta tb =
        TupleComparer compare (keys.take n) (dirs.take n) ta tb) ∧
    (TiesBefore compare keys n ta tb →
      TupleComparer compare (keys.take n) (dirs.take n) ta tb = .ok false) := by
  induction keys with
  | nil =>
    intro dirs n ta tb hn _ _
    have h0 : n = 0 := by simpa using hn
    subst h0
    refine ⟨fun h => absurd (fun m k hm _ => absurd hm (Nat.not_lt_zero m)) h, fun _ => ?_⟩
    simp [TupleComparer_nil]
  | cons k0 keys ih =>
    intro dirs n ta tb hn hdn hvalid
    cases n with
    | zero =>
      refine ⟨fun h => absurd (fun m k hm _ => absurd hm (Nat.not_lt_zero m)) h, fun _ => ?_⟩
      simp [TupleComparer_nil]
    | succ n =>
      cases dirs with
      | nil => simp at hdn
      | cons d0 dirs =>
        have hrec := ih dirs n ta tb (by simpa using hn) (by simpa using hdn)
          (fun m d hm hd => hvalid (m + 1) d (Nat.succ_lt_succ hm) (by simpa using hd))
        rw [TiesBefore_cons]
        simp only [List.take_succ_cons]
        rcases hvalid 0 d0 (Nat.succ_pos n) (by simp) with rfl | rfl
        · rw [TupleComparer_asc, TupleComparer_asc]
          constructor
          · intro hnt
            split_ifs with h1 h2
            · rfl
            · rfl
            · exact hrec.1 (fun ht => hnt ⟨by omega, ht⟩)
          · rintro ⟨h0, ht⟩
            simp [h0, hrec.2 ht]
        · rw [TupleComparer_desc, TupleComparer_desc]
          constructor
          · intro hnt
            split_ifs with h1 h2
            · rfl
            · rfl
            · exact hrec.1 (fun ht => hnt ⟨by omega, ht⟩)
          · rintro ⟨h0, ht⟩
            simp [h0, hrec.2 ht]

theorem validDirections_take (dirs : List SortDirectionType) (n : Nat)
    (hvalid : ∀ (m : Nat) (d : SortDirectionType), m < n → dirs[m]? = some d →
      d = SORT_DIRECTION_TYPE_ASC ∨ d = SORT_DIRECTION_TYPE_DESC) :
    ValidDirections (dirs.take n) := by
  intro d hd
  obtain ⟨m, hm⟩ := List.mem_iff_getElem?.1 hd
  rw [List.getElem?_take] at hm
  split_ifs at hm with hlt
  exact hvalid m d hlt hm

/-- The sort under a key/direction list whose first unrecognised direction is at
position `n`: it throws when two of the tuples, at different positions, tie on all
keys before `n`, and returns when no two do. -/
theorem std_sort_invalid_direction (hc : ConsistentCompare compare)
    (keys : List (AbstractExpression Tuple Value)) (dirs : List SortDirectionType)
    (input : List Tuple) (n : Nat)
    (hn : n < keys.length) (hd : dirs[n]? = some SORT_DIRECTION_TYPE_INVALID)
    (hvalid : ∀ (m : Nat) (d : SortDirectionType), m < n → dirs[m]? = some d →
      d = SORT_DIRECTION_TYPE_ASC ∨ d = SORT_DIRECTION_TYPE_DESC) :
    (¬ input.Pairwise (fun a b => ¬ TiesBefore compare keys n a b) →
      std_sort (TupleComparer compare keys dirs) input = .error sortInvalidException) ∧
    (input.Pairwise (fun a b => ¬ TiesBefore compare keys n a b) →
      ∃ xs, std_sort (TupleComparer compare keys dirs) input = .ok xs) := by
  have hdn : n < dirs.length := by
    by_contra hge
    rw [List.getElem?_eq_none (by omega)] at hd
    cases hd
  have hlen : (keys.take n).length = (dirs.take n).length := by
    simp [List.length_take]; omega
  have hv := validDirections_take dirs n hvalid
  have hT : ∀ a b, TiesBefore compare keys n a b →
      TupleComparer compare keys dirs a b = .error sortInvalidException :=
    fun a b h => TupleComparer_throws keys dirs n a b hn hd h
  have hN : ∀ a b, ¬ TiesBefore compare keys n a b →
      TupleComparer compare keys dirs a b =
        TupleComparer compare (keys.take n) (dirs.take n) a b :=
    fun a b h => (TupleComparer_take keys dirs n a b (by omega) (by omega) hvalid).1 h
  have hTf : ∀ a b, TiesBefore compare keys n a b →
      TupleComparer compare (keys.take n) (dirs.take n) a b = .ok false :=
    fun a b h => (TupleComparer_take keys dirs n a b (by omega) (by omega) hvalid).2 h
  have hsym : ∀ a b, TiesBefore compare keys n a b → TiesBefore compare keys n b a :=
    fun a b h => TiesBefore.symm hc h
  have hret := @TupleComparer_returns Tuple Value compare (keys.take n) (dirs.take n) hlen hv
  constructor
  · intro hnot
    exact sortLoop_tie_throws hT hN hsym hret
      (TupleComparer_asymm hc _ _ hlen hv) (TupleComparer_trans hc _ _ hlen hv) hTf
      input [] List.Pairwise.nil List.Pairwise.nil (by simpa using hnot)
  · intro hpw
    obtain ⟨xs, hxs⟩ := @std_sort_returns _ _
      (TupleComparer compare (keys.take n) (dirs.take n)) hret input
    refine ⟨xs, ?_⟩
    unfold std_sort at hxs ⊢
    rw [sortLoop_eq_of_no_tie hN hsym input [] (by simpa using hpw)]
    exact hxs

end tiesComparer
/-! ## Order-by executor: the claims -/

section orderby
variable {Tuple Value : Type} {compare : Value → Value → Int}

theorem intCompare_consistent : ConsistentCompare intCompare :=
  ⟨fun a => by simp [intCompare],
   fun a b => by simp only [intCompare]; omega,
   fun a b c => by simp only [intCompare]; omega⟩

/-- A comparer answer `false` for `(b, a)` gives the per-key order between `a` and `b`. -/
theorem OrderedByKeys_of_not_before (hc : ConsistentCompare compare)
    (keys : List (AbstractExpression Tuple Value)) :
    ∀ (dirs : List SortDirectionType) (a b : Tuple),
    TupleComparer compare keys dirs b a = .ok false → OrderedByKeys compare keys dirs a b := by
  induction keys with
  | nil => intro dirs a b _ n k d hk; simp at hk
  | cons k0 keys ih =>
    intro dirs a b h n k d hk hd hties
    cases dirs with
    | nil => simp at hd
    | cons d0 dirs =>
      have a1 := hc.antisymm (k0 a) (k0 b)
      have a2 := hc.antisymm (k0 b) (k0 a)
      cases n with
      | zero =>
        simp at hk hd
        subst hk; subst hd
        cases d0 with
        | SORT_DIRECTION_TYPE_INVALID => simp [TupleComparer_invalid] at h
        | SORT_DIRECTION_TYPE_ASC =>
          rw [TupleComparer_asc] at h
          constructor
          · intro _
            by_contra hlt
            rw [if_pos (by omega)] at h
            simp at h
          · intro hd'; cases hd'
        | SORT_DIRECTION_TYPE_DESC =>
          rw [TupleComparer_desc] at h
          constructor
          · intro hd'; cases hd'
          · intro _
            by_contra hlt
            rw [if_neg (by omega), if_pos (by omega)] at h
            simp at h
      | succ n =>
        simp at hk hd
        have h0 : compare (k0 a) (k0 b) = 0 := hties 0 k0 (Nat.succ_pos n) (by simp)
        have h0' : compare (k0 b) (k0 a) = 0 := (hc.eq_zero_iff _ _).1 h0
        have hrec : TupleComparer compare keys dirs b a = .ok false := by
          cases d0 with
          | SORT_DIRECTION_TYPE_INVALID => simp [TupleComparer_invalid] at h
          | SORT_DIRECTION_TYPE_ASC => simpa [TupleComparer_asc, h0'] using h
          | SORT_DIRECTION_TYPE_DESC => simpa [TupleComparer_desc, h0'] using h
        refine ih dirs a b hrec n k d hk hd ?_
        intro m k' hm hk'
        exact hties (m + 1) k' (Nat.succ_lt_succ hm) (by simpa using hk')

theorem emitted_sublist (limit offset : Int) (xs : List Tuple) (c s : Int) :
    (emitted limit offset xs c s).Sublist xs := by
  unfold emitted
  split_ifs
  · exact List.drop_sublist _ _
  · exact (List.take_sublist _ _).trans (List.drop_sublist _ _)

/-- C1: for every input table, every limit and offset, and every key/direction list
whose directions are all ascending or descending, `OrderByExecutor::p_execute`
returns, and any two output tuples at positions `i < j` are in the order of the
keys: `TupleComparer` does not place the later one strictly before the earlier
one, and on each key on whose predecessors the two tie the earlier tuple is not
above the later one (ascending key) or not below it (descending key). The value
comparison is assumed to be a consistent three-way comparison. -/
theorem orderBy_output_ordered (hc : ConsistentCompare compare)
    (keys : List (AbstractExpression Tuple Value)) (dirs : List SortDirectionType)
    (hlen : keys.length = dirs.length) (hv : ValidDirections dirs)
    (limit offset : Int) (input : List Tuple) :
    ∃ res, OrderByExecutor.p_execute compare keys dirs limit offset input = .ok res ∧
      ∀ (i j : Nat) (ta tb : Tuple), i < j →
        res.output[i]? = some ta → res.output[j]? = some tb →
        TupleComparer compare keys dirs tb ta = .ok false ∧
        OrderedByKeys compare keys dirs ta tb := by
  obtain ⟨xs, hsort, -, hsorted⟩ :=
    std_sort_sorted (TupleComparer_returns keys dirs hlen hv)
      (TupleComparer_asymm hc keys dirs hlen hv)
      (TupleComparer_trans hc keys dirs hlen hv) input
  refine ⟨unloadLoop limit offset xs 0 0 ⟨[], input.length⟩, ?_, ?_⟩
  · simp only [OrderByExecutor.p_execute, hsort]
  intro i j ta tb hij hi hj
  rw [unloadLoop_eq] at hi hj
  simp only [List.nil_append] at hi hj
  have hpw := hsorted.sublist (emitted_sublist limit offset xs 0 0)
  rw [List.pairwise_iff_getElem] at hpw
  obtain ⟨hi', rfl⟩ := List.getElem?_eq_some_iff.1 hi
  obtain ⟨hj', rfl⟩ := List.getElem?_eq_some_iff.1 hj
  have := hpw i j hi' hj' hij
  exact ⟨this, OrderedByKeys_of_not_before hc keys dirs _ _ this⟩

theorem orderBy_output_ordered_witness :
    ∃ res, OrderByExecutor.p_execute intCompare
        [(Prod.snd : AbstractExpression (Int × Int) Int)] [SORT_DIRECTION_TYPE_DESC] 2 1
        [(0, 3), (1, 1), (0, 2), (5, 4)] = .ok res ∧
      ∀ (i j : Nat) (ta tb : Int × Int), i < j →
        res.output[i]? = some ta → res.output[j]? = some tb →
        TupleComparer intCompare [(Prod.snd : AbstractExpression (Int × Int) Int)]
          [SORT_DIRECTION_TYPE_DESC] tb ta = .ok false ∧
        OrderedByKeys intCompare [(Prod.snd : AbstractExpression (Int × Int) Int)]
          [SORT_DIRECTION_TYPE_DESC] ta tb :=
  orderBy_output_ordered intCompare_consistent _ _ rfl
    (fun d hd => Or.inr (by simpa using hd)) 2 1 _

/-- C2 (the code departs from the claim): on an input of one tuple, sorted
ascending on its value, with offset 0 and limit 0, `OrderByExecutor::p_execute`
appends one tuple to the output table, where `max(0, min(l, n - o))` is 0: the
limit is tested only after the insert. -/
theorem orderBy_limit_zero_emits_one :
    OrderByExecutor.p_execute intCompare
        [(fun t => t : AbstractExpression Int Int)] [SORT_DIRECTION_TYPE_ASC] 0 0 [7]
      = .ok ⟨[7], 2⟩ ∧
    ((([7] : List Int).length : Int) ≠ max 0 (min 0 ((([7] : List Int).length : Int) - 0))) :=
  ⟨rfl, by decide⟩

/-- C5 (as stated, refuted): with a first key that separates the two input tuples
and an unrecognised direction on the second key, `OrderByExecutor::p_execute`
completes and returns the sorted output. -/
theorem orderBy_invalid_direction_completes :
    OrderByExecutor.p_execute intCompare
      [(Prod.fst : AbstractExpression (Int × Int) Int), Prod.snd]
      [SORT_DIRECTION_TYPE_ASC, SORT_DIRECTION_TYPE_INVALID] (-1) (-1)
      [(2, 0), (1, 0)] = .ok ⟨[(1, 0), (2, 0)], 4⟩ ∧
    SORT_DIRECTION_TYPE_INVALID ∈ [SORT_DIRECTION_TYPE_ASC, SORT_DIRECTION_TYPE_INVALID] :=
  ⟨rfl, by decide⟩

/-- C5 (amended): for a key/direction list with a direction that is neither
ascending nor descending at position `n`: when the input has at least two tuples
and every two of them tie on all keys before `n` (so whenever `n` is the first
position), `OrderByExecutor::p_execute` ends with the fatal exception of the
comparer and returns no output; and when `n` is the first such position and the
value comparison is a consistent three-way comparison, the call ends with that
exception whenever two input tuples, at different positions, tie on all keys before
`n`, and it returns when no two input tuples tie on these keys, the direction then
never being examined. -/
theorem orderBy_invalid_direction_aborts
    (keys : List (AbstractExpression Tuple Value)) (dirs : List SortDirectionType)
    (limit offset : Int) (input : List Tuple) (n : Nat)
    (hn : n < keys.length) (hd : dirs[n]? = some SORT_DIRECTION_TYPE_INVALID) :
    (2 ≤ input.length →
      (∀ ta ∈ input, ∀ tb ∈ input, TiesBefore compare keys n ta tb) →
      OrderByExecutor.p_execute compare keys dirs limit offset input =
        .error sortInvalidException) ∧
    (ConsistentCompare compare →
      (∀ (m : Nat) (d : SortDirectionType), m < n → dirs[m]? = some d →
        d = SORT_DIRECTION_TYPE_ASC ∨ d = SORT_DIRECTION_TYPE_DESC) →
      ((∃ (i j : Nat) (ta tb : Tuple), i < j ∧ input[i]? = some ta ∧ input[j]? = some tb ∧
          TiesBefore compare keys n ta tb) →
        OrderByExecutor.p_execute compare keys dirs limit offset input =
          .error sortInvalidException) ∧
      ((¬ ∃ (i j : Nat) (ta tb : Tuple), i < j ∧ input[i]? = some ta ∧
          input[j]? = some tb ∧ TiesBefore compare keys n ta tb) →
        ∃ res, OrderByExecutor.p_execute compare keys dirs limit offset input = .ok res)) := by
  constructor
  · intro hlen hties
    have h := @std_sort_throws _ _ (TupleComparer compare keys dirs) _ input hlen
      (fun x hx y hy => TupleComparer_throws keys dirs n x y hn hd (hties x hx y hy))
    simp only [OrderByExecutor.p_execute, h]
  · intro hc hvalid
    obtain ⟨hthrow, hret⟩ := std_sort_invalid_direction hc keys dirs input n hn hd hvalid
    constructor
    · rintro ⟨i, j, ta, tb, hij, hi, hj, ht⟩
      have hnot : ¬ input.Pairwise (fun a b => ¬ TiesBefore compare keys n a b) := by
        intro hpw
        rw [List.pairwise_iff_getElem] at hpw
        obtain ⟨hi', rfl⟩ := List.getElem?_eq_some_iff.1 hi
        obtain ⟨hj', rfl⟩ := List.getElem?_eq_some_iff.1 hj
        exact hpw i j hi' hj' hij ht
      simp only [OrderByExecutor.p_execute, hthrow hnot]
    · intro hno
      have hpw : input.Pairwise (fun a b => ¬ TiesBefore compare keys n a b) := by
        rw [List.pairwise_iff_getElem]
        intro i j hi hj hij ht
        exact hno ⟨i, j, input[i], input[j], hij, List.getElem?_eq_getElem hi,
          List.getElem?_eq_getElem hj, ht⟩
      obtain ⟨xs, hxs⟩ := hret hpw
      exact ⟨_, p_execute_of_sort keys dirs limit offset input xs hxs⟩

theorem orderBy_invalid_direction_aborts_witness :
    OrderByExecutor.p_execute intCompare
      [(Prod.fst : AbstractExpression (Int × Int) Int), Prod.snd]
      [SORT_DIRECTION_TYPE_ASC, SORT_DIRECTION_TYPE_INVALID] (-1) (-1)
      [(1, 0), (2, 0), (1, 1)] = .error sortInvalidException :=
  ((@orderBy_invalid_direction_aborts _ _ intCompare
    [(Prod.fst : AbstractExpression (Int × Int) Int), Prod.snd]
    [SORT_DIRECTION_TYPE_ASC, SORT_DIRECTION_TYPE_INVALID] (-1) (-1)
    [(1, 0), (2, 0), (1, 1)] 1 (by decide) rfl).2 intCompare_consistent
    (fun m d hm hd => by
      have hm0 : m = 0 := by omega
      subst hm0
      simp at hd
      exact Or.inl hd.symm)).1
    ⟨0, 2, (1, 0), (1, 1), by decide, rfl, rfl, fun m k hm hk => by
      have hm0 : m = 0 := by omega
      subst hm0
      simp at hk
      subst hk
      rfl⟩

/-- C11: whenever the sort of the input returns the sorted sequence `xs`,
`OrderByExecutor::p_execute` returns, for every offset and limit, an output table
that is, in order, a prefix of `xs` with its first `max(offset, 0)` tuples skipped:
the tuple at output position `i` is the sorted tuple at index `max(offset, 0) + i`. -/
theorem orderBy_output_is_prefix (keys : List (AbstractExpression Tuple Value))
    (dirs : List SortDirectionType) (limit offset : Int) (input xs : List Tuple)
    (hsort : std_sort (TupleComparer compare keys dirs) input = .ok xs) :
    ∃ res, OrderByExecutor.p_execute compare keys dirs limit offset input = .ok res ∧
      res.output <+: xs.drop (max offset 0).toNat ∧
      ∀ (i : Nat) (t : Tuple), res.output[i]? = some t →
        xs[(max offset 0).toNat + i]? = some t := by
  refine ⟨_, p_execute_of_sort keys dirs limit offset input xs hsort,
    emitted_prefix limit offset xs, ?_⟩
  intro i t hi
  obtain ⟨rest, hrest⟩ := emitted_prefix limit offset xs
  have hi' : (emitted limit offset xs 0 0)[i]? = some t := hi
  have hlt : i < (emitted limit offset xs 0 0).length := by
    by_contra hge
    rw [List.getElem?_eq_none (by omega)] at hi'
    cases hi'
  rw [← List.getElem?_drop, ← hrest, List.getElem?_append_left hlt]
  exact hi'

theorem orderBy_output_is_prefix_witness :
    OrderByExecutor.p_execute intCompare
        [(Prod.snd : AbstractExpression (String × Int) Int)] [SORT_DIRECTION_TYPE_ASC] 1 1
        [("a", 3), ("b", 1), ("a", 2)] = .ok ⟨[("a", 2)], 4⟩ ∧
    ∃ res, OrderByExecutor.p_execute intCompare
        [(Prod.snd : AbstractExpression (String × Int) Int)] [SORT_DIRECTION_TYPE_ASC] 1 1
        [("a", 3), ("b", 1), ("a", 2)] = .ok res ∧
      res.output <+: [("b", 1), ("a", 2), ("a", 3)].drop (max (1 : Int) 0).toNat ∧
      ∀ (i : Nat) (t : String × Int), res.output[i]? = some t →
        [("b", 1), ("a", 2), ("a", 3)][(max (1 : Int) 0).toNat + i]? = some t :=
  ⟨rfl, orderBy_output_is_prefix _ _ 1 1 _ _ rfl⟩

/-- C12: whenever the sort of the input of `n` tuples returns the sorted sequence
`xs`: for every limit below 0, `OrderByExecutor::p_execute` returns the whole of `xs`
after its first `max(offset, 0)` tuples, which is `n - offset` tuples when
`0 ≤ offset ≤ n`; and for every limit the run with offset `-1` gives what the run
with offset 0 gives. -/
theorem orderBy_negative_limit_offset (keys : List (AbstractExpression Tuple Value))
    (dirs : List SortDirectionType) (offset : Int) (input xs : List Tuple)
    (hsort : std_sort (TupleComparer compare keys dirs) input = .ok xs) :
    (∀ limit : Int, limit < 0 →
      ∃ res, OrderByExecutor.p_execute compare keys dirs limit offset input = .ok res ∧
        res.output = xs.drop (max offset 0).toNat ∧
        (0 ≤ offset → offset ≤ input.length →
          (res.output.length : Int) = (input.length : Int) - offset)) ∧
    (∀ limit : Int,
      OrderByExecutor.p_execute compare keys dirs limit (-1) input =
        OrderByExecutor.p_execute compare keys dirs limit 0 input) := by
  have hlen := (std_sort_perm input xs hsort).length_eq
  constructor
  · intro limit hl
    have h : (offset - 0).toNat = (max offset 0).toNat := by omega
    have hout : emitted limit offset xs 0 0 = xs.drop (max offset 0).toNat := by
      unfold emitted
      rw [if_pos hl, h]
    refine ⟨_, p_execute_of_sort keys dirs limit offset input xs hsort, hout, ?_⟩
    intro h0 hn
    rw [hout, List.length_drop, hlen]
    omega
  · intro limit
    rw [p_execute_of_sort keys dirs limit (-1) input xs hsort,
      p_execute_of_sort keys dirs limit 0 input xs hsort]
    have h : emitted limit (-1) xs 0 0 = emitted limit 0 xs 0 0 := by
      unfold emitted
      have h1 : ((-1 : Int) - 0).toNat = ((0 : Int) - 0).toNat := by decide
      rw [h1]
    rw [h]

theorem orderBy_negative_limit_offset_witness :
    (∀ limit : Int, limit < 0 →
      ∃ res, OrderByExecutor.p_execute intCompare
          [(Prod.snd : AbstractExpression (String × Int) Int)] [SORT_DIRECTION_TYPE_ASC]
          limit 1 [("a", 3), ("b", 1), ("a", 2)] = .ok res ∧
        res.output = [("b", 1), ("a", 2), ("a", 3)].drop (max (1 : Int) 0).toNat ∧
        ((0 : Int) ≤ 1 → (1 : Int) ≤ ([("a", 3), ("b", 1), ("a", 2)] : List (String × Int)).length →
          (res.output.length : Int) =
            (([("a", 3), ("b", 1), ("a", 2)] : List (String × Int)).length : Int) - 1)) ∧
    (∀ limit : Int,
      OrderByExecutor.p_execute intCompare
          [(Prod.snd : AbstractExpression (String × Int) Int)] [SORT_DIRECTION_TYPE_ASC]
          limit (-1) [("a", 3), ("b", 1), ("a", 2)] =
        OrderByExecutor.p_execute intCompare
          [(Prod.snd : AbstractExpression (String × Int) Int)] [SORT_DIRECTION_TYPE_ASC]
          limit 0 [("a", 3), ("b", 1), ("a", 2)]) :=
  orderBy_negative_limit_offset _ _ 1 _ _ rfl

/-- C13: with directions that are all ascending or descending,
`OrderByExecutor::p_execute` returns an output made of input tuples: for every limit
and offset it is a sub-multiset of the input (no tuple occurs more often than in the
input), and with no limit (`limit < 0`) and no offset (`offset ≤ 0`) it is a
permutation of the input, none lost and none duplicated. -/
theorem orderBy_output_permutation (keys : List (AbstractExpression Tuple Value))
    (dirs : List SortDirectionType) (hlen : keys.length = dirs.length)
    (hv : ValidDirections dirs) (limit offset : Int) (input : List Tuple) :
    ∃ res, OrderByExecutor.p_execute compare keys dirs limit offset input = .ok res ∧
      res.output.Subperm input ∧
      (limit < 0 → offset ≤ 0 → res.output.Perm input) := by
  obtain ⟨xs, hsort⟩ := @std_sort_returns _ _ (TupleComparer compare keys dirs)
    (TupleComparer_returns keys dirs hlen hv) input
  have hperm := std_sort_perm input xs hsort
  refine ⟨_, p_execute_of_sort keys dirs limit offset input xs hsort, ?_, ?_⟩
  · exact (emitted_sublist limit offset xs 0 0).subperm.trans hperm.subperm
  · intro hl ho
    have h : (offset - 0).toNat = 0 := by omega
    have hout : emitted limit offset xs 0 0 = xs := by
      unfold emitted
      rw [if_pos hl, h, List.drop_zero]
    simpa [hout] using hperm

theorem orderBy_output_permutation_witness :
    ∃ res, OrderByExecutor.p_execute intCompare
        [(Prod.snd : AbstractExpression (String × Int) Int)] [SORT_DIRECTION_TYPE_DESC]
        (-1) (-1) [("a", 3), ("b", 1), ("a", 2), ("b", 1)] = .ok res ∧
      res.output.Subperm [("a", 3), ("b", 1), ("a", 2), ("b", 1)] ∧
      ((-1 : Int) < 0 → (-1 : Int) ≤ 0 →
        res.output.Perm [("a", 3), ("b", 1), ("a", 2), ("b", 1)]) :=
  orderBy_output_permutation _ _ rfl (fun d hd => Or.inr (by simpa using hd)) (-1) (-1) _

/-- C15: when `OrderByExecutor::p_execute` completes on an input of `n` tuples with an
output of `m` tuples, `countdownProgress` has been called exactly `n + m` times: once
per input tuple read and once per tuple emitted. -/
theorem orderBy_progress_count (keys : List (AbstractExpression Tuple Value))
    (dirs : List SortDirectionType) (limit offset : Int) (input : List Tuple)
    (res : OrderByResult Tuple)
    (h : OrderByExecutor.p_execute compare keys dirs limit offset input = .ok res) :
    res.progress = input.length + res.output.length := by
  obtain ⟨xs, -, -, -, hp⟩ := p_execute_eq_emitted keys dirs limit offset input res h
  exact hp

theorem orderBy_progress_count_witness :
    (⟨[("a", 2), ("a", 3)], 5⟩ : OrderByResult (String × Int)).progress =
      ([("a", 3), ("b", 1), ("a", 2)] : List (String × Int)).length +
      (⟨[("a", 2), ("a", 3)], 5⟩ : OrderByResult (String × Int)).output.length :=
  @orderBy_progress_count _ _ intCompare
    [(Prod.snd : AbstractExpression (String × Int) Int)] [SORT_DIRECTION_TYPE_ASC] 5 1
    [("a", 3), ("b", 1), ("a", 2)] ⟨[("a", 2), ("a", 3)], 5⟩ rfl

/-- C17: for any two tuples and any key/direction list (the two vectors having the
same length), `TupleComparer::operator()` gives what the lexicographic reference
gives: the first key on which the values differ decides (`true` exactly when `ta` is
lower under ascending or higher under descending), the answer is `false` when all
keys tie, and the fatal error is thrown exactly when a key with an unrecognised
direction is reached with all earlier keys tying. -/
theorem tupleComparer_eq_reference (keys : List (AbstractExpression Tuple Value)) :
    ∀ (dirs : List SortDirectionType), keys.length = dirs.length →
    ∀ (ta tb : Tuple), TupleComparer compare keys dirs ta tb =
      lexicographicReference compare keys dirs ta tb := by
  induction keys with
  | nil => intro dirs _ ta tb; rw [TupleComparer_nil]; rfl
  | cons k keys ih =>
    intro dirs hlen ta tb
    cases dirs with
    | nil => simp at hlen
    | cons d dirs =>
      have ih' := ih dirs (by simpa using hlen) ta tb
      unfold lexicographicReference at ih' ⊢
      cases d with
      | SORT_DIRECTION_TYPE_INVALID =>
        rw [TupleComparer_invalid]
        simp [keyVerdict]
      | SORT_DIRECTION_TYPE_ASC =>
        rw [TupleComparer_asc]
        rcases lt_trichotomy (compare (k ta) (k tb)) 0 with h | h | h
        · have h' : compare (k ta) (k tb) ≠ 0 := by omega
          simp [keyVerdict, h, h']
        · simp [keyVerdict, h, ih']
        · have h' : compare (k ta) (k tb) ≠ 0 := by omega
          have h'' : ¬ compare (k ta) (k tb) < 0 := by omega
          simp [keyVerdict, h, h', h'']
      | SORT_DIRECTION_TYPE_DESC =>
        rw [TupleComparer_desc]
        rcases lt_trichotomy (compare (k ta) (k tb)) 0 with h | h | h
        · have h' : compare (k ta) (k tb) ≠ 0 := by omega
          have h'' : ¬ 0 < compare (k ta) (k tb) := by omega
          simp [keyVerdict, h, h', h'']
        · simp [keyVerdict, h, ih']
        · have h' : compare (k ta) (k tb) ≠ 0 := by omega
          have h'' : ¬ compare (k ta) (k tb) < 0 := by omega
          simp [keyVerdict, h, h', h'']

theorem tupleComparer_eq_reference_witness :
    TupleComparer intCompare [(Prod.fst : AbstractExpression (Int × Int) Int), Prod.snd]
      [SORT_DIRECTION_TYPE_ASC, SORT_DIRECTION_TYPE_INVALID] (1, 2) (1, 3) =
    lexicographicReference intCompare [(Prod.fst : AbstractExpression (Int × Int) Int), Prod.snd]
      [SORT_DIRECTION_TYPE_ASC, SORT_DIRECTION_TYPE_INVALID] (1, 2) (1, 3) :=
  tupleComparer_eq_reference _ _ rfl (1, 2) (1, 3)

/-- C18: when every direction is ascending or descending and the value comparison is
a consistent three-way comparison, `TupleComparer` is a strict weak ordering on
tuples: it always answers, places no tuple before itself, is asymmetric and
transitive, and "neither sorts before the other" is transitive. -/
theorem tupleComparer_strict_weak_order (hc : ConsistentCompare compare)
    (keys : List (AbstractExpression Tuple Value)) (dirs : List SortDirectionType)
    (hlen : keys.length = dirs.length) (hv : ValidDirections dirs) :
    (∀ ta tb, ∃ r, TupleComparer compare keys dirs ta tb = .ok r) ∧
    (∀ ta, TupleComparer compare keys dirs ta ta = .ok false) ∧
    (∀ ta tb, TupleComparer compare keys dirs ta tb = .ok true →
      TupleComparer compare keys dirs tb ta = .ok false) ∧
    (∀ ta tb tc, TupleComparer compare keys dirs ta tb = .ok true →
      TupleComparer compare keys dirs tb tc = .ok true →
      TupleComparer compare keys dirs ta tc = .ok true) ∧
    (∀ ta tb tc,
      TupleComparer compare keys dirs ta tb = .ok false →
      TupleComparer compare keys dirs tb ta = .ok false →
      TupleComparer compare keys dirs tb tc = .ok false →
      TupleComparer compare keys dirs tc tb = .ok false →
      TupleComparer compare keys dirs ta tc = .ok false ∧
      TupleComparer compare keys dirs tc ta = .ok false) := by
  have hret := @TupleComparer_returns Tuple Value compare keys dirs hlen hv
  have hasym := TupleComparer_asymm hc keys dirs hlen hv
  have htrans := TupleComparer_trans hc keys dirs hlen hv
  refine ⟨hret, TupleComparer_irrefl hc keys dirs hlen hv, hasym, ?_, ?_⟩
  · intro ta tb tc hab hbc
    obtain ⟨r, hr⟩ := hret ta tc
    cases r with
    | true => exact hr
    | false =>
      have h1 := htrans tc ta tb hr (hasym ta tb hab)
      rw [hbc] at h1
      cases h1
  · intro ta tb tc hab hba hbc hcb
    exact ⟨htrans tc tb ta hbc hab, htrans ta tb tc hba hcb⟩

theorem tupleComparer_strict_weak_order_witness :
    (∀ ta tb, ∃ r, TupleComparer intCompare
      [(Prod.fst : AbstractExpression (Int × Int) Int), Prod.snd]
      [SORT_DIRECTION_TYPE_ASC, SORT_DIRECTION_TYPE_DESC] ta tb = .ok r) ∧
    (∀ ta, TupleComparer intCompare
      [(Prod.fst : AbstractExpression (Int × Int) Int), Prod.snd]
      [SORT_DIRECTION_TYPE_ASC, SORT_DIRECTION_TYPE_DESC] ta ta = .ok false) ∧
    (∀ ta tb, TupleComparer intCompare
      [(Prod.fst : AbstractExpression (Int × Int) Int), Prod.snd]
      [SORT_DIRECTION_TYPE_ASC, SORT_DIRECTION_TYPE_DESC] ta tb = .ok true →
      TupleComparer intCompare
      [(Prod.fst : AbstractExpression (Int × Int) Int), Prod.snd]
      [SORT_DIRECTION_TYPE_ASC, SORT_DIRECTION_TYPE_DESC] tb ta = .ok false) ∧
    (∀ ta tb tc, TupleComparer intCompare
      [(Prod.fst : AbstractExpression (Int × Int) Int), Prod.snd]
      [SORT_DIRECTION_TYPE_ASC, SORT_DIRECTION_TYPE_DESC] ta tb = .ok true →
      TupleComparer intCompare
      [(Prod.fst : AbstractExpression (Int × Int) Int), Prod.snd]
      [SORT_DIRECTION_TYPE_ASC, SORT_DIRECTION_TYPE_DESC] tb tc = .ok true →
      TupleComparer intCompare
      [(Prod.fst : AbstractExpression (Int × Int) Int), Prod.snd]
      [SORT_DIRECTION_TYPE_ASC, SORT_DIRECTION_TYPE_DESC] ta tc = .ok true) ∧
    (∀ ta tb tc,
      TupleComparer intCompare
      [(Prod.fst : AbstractExpression (Int × Int) Int), Prod.snd]
      [SORT_DIRECTION_TYPE_ASC, SORT_DIRECTION_TYPE_DESC] ta tb = .ok false →
      TupleComparer intCompare
      [(Prod.fst : AbstractExpression (Int × Int) Int), Prod.snd]
      [SORT_DIRECTION_TYPE_ASC, SORT_DIRECTION_TYPE_DESC] tb ta = .ok false →
      TupleComparer intCompare
      [(Prod.fst : AbstractExpression (Int × Int) Int), Prod.snd]
      [SORT_DIRECTION_TYPE_ASC, SORT_DIRECTION_TYPE_DESC] tb tc = .ok false →
      TupleComparer intCompare
      [(Prod.fst : AbstractExpression (Int × Int) Int), Prod.snd]
      [SORT_DIRECTION_TYPE_ASC, SORT_DIRECTION_TYPE_DESC] tc tb = .ok false →
      TupleComparer intCompare
      [(Prod.fst : AbstractExpression (Int × Int) Int), Prod.snd]
      [SORT_DIRECTION_TYPE_ASC, SORT_DIRECTION_TYPE_DESC] ta tc = .ok false ∧
      TupleComparer intCompare
      [(Prod.fst : AbstractExpression (Int × Int) Int), Prod.snd]
      [SORT_DIRECTION_TYPE_ASC, SORT_DIRECTION_TYPE_DESC] tc ta = .ok false) :=
  tupleComparer_strict_weak_order intCompare_consistent _ _ rfl
    (fun d hd => by
      simp at hd
      rcases hd with rfl | rfl
      · exact Or.inl rfl
      · exact Or.inr rfl)

end orderby

/-! ## Properties of the upsert loop -/

section upsertLemmas
variable {Tuple Key Value : Type} [DecidableEq Key]

theorem upsertRow_static (env : Collaborators Tuple Key Value) (table table' : PersistentTable Tuple)
    (t : Tuple) (h : table.upsertRow env t = some table') :
    table'.name = table.name ∧ table'.partitionColumn = table.partitionColumn ∧
    table'.hasPrimaryKeyIndex = table.hasPrimaryKeyIndex := by
  unfold PersistentTable.upsertRow at h
  cases hl : table.lookupTuple env t with
  | none =>
    rw [hl] at h
    simp only [PersistentTable.insertTuple] at h
    split_ifs at h
    cases h
    exact ⟨rfl, rfl, rfl⟩
  | some i =>
    rw [hl] at h
    simp only [PersistentTable.updateTupleWithSpecificIndexes] at h
    split_ifs at h
    cases h
    exact ⟨rfl, rfl, rfl⟩

theorem uniqueMatchingTuple_none (primaryKey : Tuple → Key) (key : Key) (rows : List Tuple) :
    uniqueMatchingTuple primaryKey key rows = none ↔ ∀ r ∈ rows, primaryKey r ≠ key := by
  induction rows with
  | nil => simp [uniqueMatchingTuple]
  | cons r rows ih =>
    unfold uniqueMatchingTuple
    by_cases h : primaryKey r = key
    · simp [h]
    · rw [if_neg h]
      cases hrec : uniqueMatchingTuple primaryKey key rows with
      | none => simpa [h] using ih.1 hrec
      | some i =>
        simp only [false_iff, reduceCtorEq]
        intro hall
        have := ih.2 (fun x hx => hall x (List.mem_cons_of_mem _ hx))
        rw [hrec] at this
        cases this

theorem uniqueMatchingTuple_some (primaryKey : Tuple → Key) (key : Key) (rows : List Tuple) :
    ∀ i, uniqueMatchingTuple primaryKey key rows = some i →
      ∃ r, rows[i]? = some r ∧ primaryKey r = key := by
  induction rows with
  | nil => intro i h; simp [uniqueMatchingTuple] at h
  | cons r rows ih =>
    intro i h
    unfold uniqueMatchingTuple at h
    by_cases hk : primaryKey r = key
    · rw [if_pos hk] at h
      cases h
      exact ⟨r, by simp, hk⟩
    · rw [if_neg hk] at h
      cases hrec : uniqueMatchingTuple primaryKey key rows with
      | none => rw [hrec] at h; cases h
      | some j =>
        rw [hrec] at h
        cases h
        obtain ⟨r', h1, h2⟩ := ih j hrec
        exact ⟨r', by simpa using h1, h2⟩

variable (env : Collaborators Tuple Key Value) (exec : UpsertExecutor)

theorem upsertLoop_nil (table : PersistentTable Tuple) (m : Int) :
    UpsertExecutor.upsertLoop env exec [] table m = (.returnedTrue m, table) := rfl

/-- A row that fails the partition check under a multi-partition statement is skipped. -/
theorem upsertLoop_skip (t : Tuple) (rest : List Tuple) (table : PersistentTable Tuple) (m : Int)
    (hp : UpsertExecutor.isProcessed env exec t = false) (hm : exec.m_multiPartition = true) :
    UpsertExecutor.upsertLoop env exec (t :: rest) table m =
      UpsertExecutor.upsertLoop env exec rest table m := by
  unfold UpsertExecutor.isProcessed at hp
  by_cases hc : exec.m_partitionColumn ≠ -1
  · rw [if_pos hc] at hp
    rw [UpsertExecutor.upsertLoop, if_pos ⟨hc, hp⟩, if_neg (by simp [hm])]
  · rw [if_neg hc] at hp; cases hp

/-- A row that fails the partition check under a single-partition statement raises. -/
theorem upsertLoop_mispartitioned (t : Tuple) (rest : List Tuple)
    (table : PersistentTable Tuple) (m : Int)
    (hp : UpsertExecutor.isProcessed env exec t = false) (hm : exec.m_multiPartition = false) :
    UpsertExecutor.upsertLoop env exec (t :: rest) table m =
      (.constraintFailure table.name t mispartitionedMessage, table) := by
  unfold UpsertExecutor.isProcessed at hp
  by_cases hc : exec.m_partitionColumn ≠ -1
  · rw [if_pos hc] at hp
    rw [UpsertExecutor.upsertLoop, if_pos ⟨hc, hp⟩, if_pos hm]
  · rw [if_neg hc] at hp; cases hp

/-- The loop body for a row that passes the partition check. -/
theorem upsertLoop_processed (t : Tuple) (rest : List Tuple) (table : PersistentTable Tuple)
    (m : Int) (hp : UpsertExecutor.isProcessed env exec t = true) :
    UpsertExecutor.upsertLoop env exec (t :: rest) table m =
      if env.assertsEnabled = true ∧ table.hasPrimaryKeyIndex = false then
        (.assertionFailed, table)
      else
        match table.upsertRow env t with
        | none => (.returnedFalse, table)
        | some table' => UpsertExecutor.upsertLoop env exec rest table' (m + 1) := by
  unfold UpsertExecutor.isProcessed at hp
  have hc : ¬ (exec.m_partitionColumn ≠ -1 ∧
      env.isLocalSite (env.getNValue t exec.m_partitionColumn) = false) := by
    intro ⟨h1, h2⟩
    rw [if_pos h1, h2] at hp
    cases hp
  rw [UpsertExecutor.upsertLoop, if_neg hc]
  split_ifs
  · rfl
  · unfold PersistentTable.upsertRow
    cases table.lookupTuple env t with
    | none => rfl
    | some i => rfl

/-- Running the loop over `pre ++ post` is running it over `pre` and, when that run
comes to the end of `pre`, continuing over `post` from the state reached. -/
theorem upsertLoop_append (pre post : List Tuple) :
    ∀ (table : PersistentTable Tuple) (m : Int),
    UpsertExecutor.upsertLoop env exec (pre ++ post) table m =
      match UpsertExecutor.upsertLoop env exec pre table m with
      | (.returnedTrue m', table') => UpsertExecutor.upsertLoop env exec post table' m'
      | other => other := by
  induction pre with
  | nil => intro table m; rfl
  | cons t pre ih =>
    intro table m
    rw [List.cons_append]
    by_cases hp : UpsertExecutor.isProcessed env exec t = true
    · rw [upsertLoop_processed env exec t _ table m hp,
        upsertLoop_processed env exec t _ table m hp]
      split_ifs
      · rfl
      · cases table.upsertRow env t with
        | none => rfl
        | some table' => exact ih table' (m + 1)
    · have hp' : UpsertExecutor.isProcessed env exec t = false := by simpa using hp
      cases hm : exec.m_multiPartition with
      | true =>
        rw [upsertLoop_skip env exec t _ table m hp' hm,
          upsertLoop_skip env exec t _ table m hp' hm]
        exact ih table m
      | false =>
        rw [upsertLoop_mispartitioned env exec t _ table m hp' hm,
          upsertLoop_mispartitioned env exec t _ table m hp' hm]

/-- The loop never changes the table's name, partition column or primary-key index. -/
theorem upsertLoop_static (input : List Tuple) :
    ∀ (table : PersistentTable Tuple) (m : Int),
    (UpsertExecutor.upsertLoop env exec input table m).2.name = table.name ∧
    (UpsertExecutor.upsertLoop env exec input table m).2.partitionColumn =
      table.partitionColumn ∧
    (UpsertExecutor.upsertLoop env exec input table m).2.hasPrimaryKeyIndex =
      table.hasPrimaryKeyIndex := by
  induction input with
  | nil => intro table m; exact ⟨rfl, rfl, rfl⟩
  | cons t rest ih =>
    intro table m
    by_cases hp : UpsertExecutor.isProcessed env exec t = true
    · rw [upsertLoop_processed env exec t _ table m hp]
      split_ifs
      · exact ⟨rfl, rfl, rfl⟩
      · cases hr : table.upsertRow env t with
        | none => exact ⟨rfl, rfl, rfl⟩
        | some table' =>
          obtain ⟨h1, h2, h3⟩ := upsertRow_static env table table' t hr
          obtain ⟨g1, g2, g3⟩ := ih table' (m + 1)
          exact ⟨g1.trans h1, g2.trans h2, g3.trans h3⟩
    · have hp' : UpsertExecutor.isProcessed env exec t = false := by simpa using hp
      cases hm : exec.m_multiPartition with
      | true => rw [upsertLoop_skip env exec t _ table m hp' hm]; exact ih table m
      | false =>
        rw [upsertLoop_mispartitioned env exec t _ table m hp' hm]
        exact ⟨rfl, rfl, rfl⟩

/-- When the loop returns `true`, the counter has grown by the number of rows that
passed the partition check. -/
theorem upsertLoop_count (input : List Tuple) :
    ∀ (table table' : PersistentTable Tuple) (m n : Int),
    UpsertExecutor.upsertLoop env exec input table m = (.returnedTrue n, table') →
    n = m + ((input.filter (UpsertExecutor.isProcessed env exec)).length : Int) := by
  induction input with
  | nil => intro table table' m n h; rw [upsertLoop_nil] at h; cases h; simp
  | cons t rest ih =>
    intro table table' m n h
    by_cases hp : UpsertExecutor.isProcessed env exec t = true
    · rw [upsertLoop_processed env exec t _ table m hp] at h
      rw [List.filter_cons_of_pos hp]
      have key : ∀ table₁, UpsertExecutor.upsertLoop env exec rest table₁ (m + 1) =
          (.returnedTrue n, table') →
          n = m + (((t :: rest.filter (UpsertExecutor.isProcessed env exec)).length : Nat) : Int) := by
        intro table₁ h₁
        have := ih table₁ table' (m + 1) n h₁
        rw [this, List.length_cons]; push_cast; ring
      split_ifs at h
      · cases h
      · cases hr : table.upsertRow env t with
        | none => rw [hr] at h; cases h
        | some table₁ => rw [hr] at h; exact key table₁ h
    · have hp' : UpsertExecutor.isProcessed env exec t = false := by simpa using hp
      rw [List.filter_cons_of_neg hp]
      cases hm : exec.m_multiPartition with
      | true =>
        rw [upsertLoop_skip env exec t _ table m hp' hm] at h
        exact ih table table' m n h
      | false =>
        rw [upsertLoop_mispartitioned env exec t _ table m hp' hm] at h
        cases h

/-- Under a multi-partition statement the loop does on any input what it does on the
rows that pass the partition check. -/
theorem upsertLoop_filter (hm : exec.m_multiPartition = true) (input : List Tuple) :
    ∀ (table : PersistentTable Tuple) (m : Int),
    UpsertExecutor.upsertLoop env exec input table m =
      UpsertExecutor.upsertLoop env exec
        (input.filter (UpsertExecutor.isProcessed env exec)) table m := by
  induction input with
  | nil => intro table m; rfl
  | cons t rest ih =>
    intro table m
    by_cases hp : UpsertExecutor.isProcessed env exec t = true
    · rw [List.filter_cons_of_pos hp, upsertLoop_processed env exec t _ table m hp,
        upsertLoop_processed env exec t _ table m hp]
      split_ifs
      · rfl
      · cases table.upsertRow env t with
        | none => rfl
        | some table' => exact ih table' (m + 1)
    · have hp' : UpsertExecutor.isProcessed env exec t = false := by simpa using hp
      rw [List.filter_cons_of_neg hp, upsertLoop_skip env exec t _ table m hp' hm]
      exact ih table m

theorem filter_length_split {α : Type} (p : α → Bool) (l : List α) :
    (l.filter p).length + (l.filter (fun t => !p t)).length = l.length := by
  induction l with
  | nil => rfl
  | cons t rest ih =>
    cases hp : p t <;> simp [List.filter_cons, hp] <;> omega

theorem upsertLoop_without_primary_key (hassert : env.assertsEnabled = true)
    (input : List Tuple) (table : PersistentTable Tuple) (m : Int)
    (hpk : table.hasPrimaryKeyIndex = false) :
    (UpsertExecutor.upsertLoop env exec input table m).2 = table ∧
    (UpsertExecutor.upsertLoop env exec input table m).1 ≠ .returnedFalse ∧
    ∀ n, (UpsertExecutor.upsertLoop env exec input table m).1 = .returnedTrue n →
      n = m ∧ ∀ t ∈ input, UpsertExecutor.isProcessed env exec t = false := by
  induction input with
  | nil =>
    refine ⟨rfl, by simp [upsertLoop_nil], ?_⟩
    intro n h
    rw [upsertLoop_nil] at h
    cases h
    exact ⟨rfl, by simp⟩
  | cons t rest ih =>
    by_cases hp : UpsertExecutor.isProcessed env exec t = true
    · rw [upsertLoop_processed env exec t rest table m hp, if_pos ⟨hassert, hpk⟩]
      exact ⟨rfl, by simp, fun n h => by cases h⟩
    · have hp' : UpsertExecutor.isProcessed env exec t = false := by simpa using hp
      cases hm : exec.m_multiPartition with
      | true =>
        rw [upsertLoop_skip env exec t rest table m hp' hm]
        refine ⟨ih.1, ih.2.1, ?_⟩
        intro n h
        obtain ⟨h1, h2⟩ := ih.2.2 n h
        refine ⟨h1, ?_⟩
        intro x hx
        rcases List.mem_cons.1 hx with rfl | hx
        · exact hp'
        · exact h2 x hx
      | false =>
        rw [upsertLoop_mispartitioned env exec t rest table m hp' hm]
        exact ⟨rfl, by simp, fun n h => by cases h⟩

theorem upsertRow_insertedOrUpdated (table table₁ : PersistentTable Tuple) (t : Tuple)
    (h : table.upsertRow env t = some table₁) : InsertedOrUpdated env table t table₁ := by
  unfold PersistentTable.upsertRow at h
  unfold InsertedOrUpdated
  cases hl : table.lookupTuple env t with
  | none => rw [hl] at h; exact Or.inl ⟨rfl, h⟩
  | some i => rw [hl] at h; exact Or.inr ⟨i, rfl, h⟩

/-- A loop that returns `true` has inserted or updated, in order, every row that got
past the partition check, and nothing else. -/
theorem upsertLoop_insertedOrUpdated (input : List Tuple) :
    ∀ (table table' : PersistentTable Tuple) (m n : Int),
    UpsertExecutor.upsertLoop env exec input table m = (.returnedTrue n, table') →
    InsertedOrUpdatedInOrder env (input.filter (UpsertExecutor.isProcessed env exec))
      table table' := by
  induction input with
  | nil =>
    intro table table' m n h
    rw [upsertLoop_nil] at h
    cases h
    rfl
  | cons t rest ih =>
    intro table table' m n h
    by_cases hp : UpsertExecutor.isProcessed env exec t = true
    · rw [upsertLoop_processed env exec t _ table m hp] at h
      rw [List.filter_cons_of_pos hp]
      split_ifs at h
      · cases h
      · cases hr : table.upsertRow env t with
        | none => rw [hr] at h; cases h
        | some table₁ =>
          rw [hr] at h
          exact ⟨table₁, upsertRow_insertedOrUpdated env table table₁ t hr,
            ih table₁ table' (m + 1) n h⟩
    · have hp' : UpsertExecutor.isProcessed env exec t = false := by simpa using hp
      rw [List.filter_cons_of_neg hp]
      cases hm : exec.m_multiPartition with
      | true =>
        rw [upsertLoop_skip env exec t _ table m hp' hm] at h
        exact ih table table' m n h
      | false =>
        rw [upsertLoop_mispartitioned env exec t _ table m hp' hm] at h
        cases h

end upsertLemmas

section upsertRows
variable {Tuple Key : Type} [DecidableEq Key]

theorem filter_key_of_lookup_none (primaryKey : Tuple → Key) (key : Key) (rows : List Tuple)
    (h : uniqueMatchingTuple primaryKey key rows = none) :
    rows.filter (fun r => decide (primaryKey r = key)) = [] := by
  rw [List.filter_eq_nil_iff]
  intro r hr
  simpa using (uniqueMatchingTuple_none primaryKey key rows).1 h r hr

theorem filter_key_set (primaryKey : Tuple → Key) (t : Tuple) (rows : List Tuple) :
    ∀ i, (rows.map primaryKey).Nodup →
      uniqueMatchingTuple primaryKey (primaryKey t) rows = some i →
      (rows.set i t).filter (fun r => decide (primaryKey r = primaryKey t)) = [t] := by
  induction rows with
  | nil => intro i _ h; simp [uniqueMatchingTuple] at h
  | cons r rows ih =>
    intro i hnd h
    rw [List.map_cons, List.nodup_cons] at hnd
    unfold uniqueMatchingTuple at h
    by_cases hk : primaryKey r = primaryKey t
    · rw [if_pos hk] at h
      cases h
      have hnone : ∀ x ∈ rows, primaryKey x ≠ primaryKey t := by
        intro x hx hxk
        exact hnd.1 (hk ▸ hxk ▸ List.mem_map_of_mem primaryKey hx)
      have : rows.filter (fun r => decide (primaryKey r = primaryKey t)) = [] := by
        rw [List.filter_eq_nil_iff]
        intro x hx
        simpa using hnone x hx
      simp [List.filter_cons, this]
    · rw [if_neg hk] at h
      cases hrec : uniqueMatchingTuple primaryKey (primaryKey t) rows with
      | none => rw [hrec] at h; cases h
      | some j =>
        rw [hrec] at h
        cases h
        simp [List.filter_cons, hk, ih j hnd.2 hrec]

theorem set_eq_self_of_getElem? (t : Tuple) (rows : List Tuple) :
    ∀ i, rows[i]? = some t → rows.set i t = rows := by
  induction rows with
  | nil => intro i h; simp at h
  | cons r rows ih =>
    intro i h
    cases i with
    | zero => simp at h; simp [h]
    | succ i => simp at h; simp [ih i h]

theorem set_of_lookup_unique (primaryKey : Tuple → Key) (t : Tuple) (rows : List Tuple) :
    ∀ i, rows.filter (fun r => decide (primaryKey r = primaryKey t)) = [t] →
      uniqueMatchingTuple primaryKey (primaryKey t) rows = some i → rows.set i t = rows := by
  intro i hf h
  obtain ⟨r, hr, hk⟩ := uniqueMatchingTuple_some primaryKey (primaryKey t) rows i h
  have hmem : r ∈ rows.filter (fun r => decide (primaryKey r = primaryKey t)) :=
    List.mem_filter.2 ⟨List.getElem?_mem hr, by simpa using hk⟩
  rw [hf] at hmem
  have hrt : r = t := by simpa using hmem
  subst hrt
  exact set_eq_self_of_getElem? r rows i hr

end upsertRows

section upsertState
variable {Tuple Key Value : Type} [DecidableEq Key]

theorem filter_set_of_not (p : Tuple → Bool) (t : Tuple) (rows : List Tuple) :
    ∀ (i : Nat) (r : Tuple), rows[i]? = some r → p r = false → p t = false →
      (rows.set i t).filter p = rows.filter p := by
  induction rows with
  | nil => intro i r h; simp at h
  | cons x rows ih =>
    intro i r h hr ht
    cases i with
    | zero =>
      simp at h
      subst h
      simp [List.filter_cons, hr, ht]
    | succ i =>
      simp at h
      simp [List.filter_cons, ih i r h hr ht]

variable (env : Collaborators Tuple Key Value)

/-- The rows with a given primary key after the insert-or-update of `t`: the row `t`
alone when the key is that of `t`, the rows as they were otherwise. -/
theorem upsertRow_filter (table table' : PersistentTable Tuple) (t : Tuple)
    (hpk : table.hasPrimaryKeyIndex = true)
    (huniq : (table.rows.map env.primaryKey).Nodup)
    (h : table.upsertRow env t = some table') (key : Key) :
    table'.rows.filter (fun r => decide (env.primaryKey r = key)) =
      if env.primaryKey t = key then [t]
      else table.rows.filter (fun r => decide (env.primaryKey r = key)) := by
  have hlook : table.lookupTuple env t =
      uniqueMatchingTuple env.primaryKey (env.primaryKey t) table.rows := by
    simp [PersistentTable.lookupTuple, hpk]
  unfold PersistentTable.upsertRow at h
  rw [hlook] at h
  cases hl : uniqueMatchingTuple env.primaryKey (env.primaryKey t) table.rows with
  | none =>
    rw [hl] at h
    simp only [PersistentTable.insertTuple] at h
    split_ifs at h
    cases h
    by_cases hk : env.primaryKey t = key
    · subst hk
      simp [List.filter_append,
        filter_key_of_lookup_none env.primaryKey (env.primaryKey t) table.rows hl]
    · simp [List.filter_append, hk]
  | some i =>
    rw [hl] at h
    simp only [PersistentTable.updateTupleWithSpecificIndexes] at h
    split_ifs at h
    cases h
    by_cases hk : env.primaryKey t = key
    · subst hk
      simpa using filter_key_set env.primaryKey t table.rows i huniq hl
    · obtain ⟨r, hr, hrk⟩ := uniqueMatchingTuple_some env.primaryKey (env.primaryKey t)
        table.rows i hl
      rw [if_neg hk]
      exact filter_set_of_not _ t table.rows i r hr (by simp [hrk, hk]) (by simp [hk])

/-- The insert-or-update of a row keeps the primary keys of the rows distinct. -/
theorem upsertRow_nodup (table table' : PersistentTable Tuple) (t : Tuple)
    (hpk : table.hasPrimaryKeyIndex = true)
    (huniq : (table.rows.map env.primaryKey).Nodup)
    (h : table.upsertRow env t = some table') :
    (table'.rows.map env.primaryKey).Nodup := by
  have hlook : table.lookupTuple env t =
      uniqueMatchingTuple env.primaryKey (env.primaryKey t) table.rows := by
    simp [PersistentTable.lookupTuple, hpk]
  unfold PersistentTable.upsertRow at h
  rw [hlook] at h
  cases hl : uniqueMatchingTuple env.primaryKey (env.primaryKey t) table.rows with
  | none =>
    rw [hl] at h
    simp only [PersistentTable.insertTuple] at h
    split_ifs at h
    cases h
    have hnone := (uniqueMatchingTuple_none env.primaryKey (env.primaryKey t) table.rows).1 hl
    simp only [List.map_append, List.map_cons, List.map_nil]
    rw [List.nodup_append]
    refine ⟨huniq, List.nodup_singleton _, ?_⟩
    intro k hk1 hk2
    simp at hk2
    subst hk2
    obtain ⟨r, hr, hrk⟩ := List.mem_map.1 hk1
    exact hnone r hr hrk
  | some i =>
    rw [hl] at h
    simp only [PersistentTable.updateTupleWithSpecificIndexes] at h
    split_ifs at h
    cases h
    obtain ⟨r, hr, hrk⟩ := uniqueMatchingTuple_some env.primaryKey (env.primaryKey t)
      table.rows i hl
    have hget : (table.rows.map env.primaryKey)[i]? = some (env.primaryKey t) := by
      simp [hr, hrk]
    simp only [List.map_set]
    rw [set_eq_self_of_getElem? _ _ i hget]
    exact huniq

variable (exec : UpsertExecutor)

/-- The loop keeps the primary keys of the rows distinct, however it ends. -/
theorem upsertLoop_nodup (input : List Tuple) :
    ∀ (table : PersistentTable Tuple) (m : Int), table.hasPrimaryKeyIndex = true →
    (table.rows.map env.primaryKey).Nodup →
    ((UpsertExecutor.upsertLoop env exec input table m).2.rows.map env.primaryKey).Nodup := by
  induction input with
  | nil => intro table m _ h; exact h
  | cons t rest ih =>
    intro table m hpk huniq
    by_cases hp : UpsertExecutor.isProcessed env exec t = true
    · rw [upsertLoop_processed env exec t _ table m hp]
      split_ifs
      · exact huniq
      · cases hr : table.upsertRow env t with
        | none => exact huniq
        | some table' =>
          exact ih table' (m + 1) ((upsertRow_static env table table' t hr).2.2.trans hpk)
            (upsertRow_nodup env table table' t hpk huniq hr)
    · have hp' : UpsertExecutor.isProcessed env exec t = false := by simpa using hp
      cases hm : exec.m_multiPartition with
      | true => rw [upsertLoop_skip env exec t _ table m hp' hm]; exact ih table m hpk huniq
      | false => rw [upsertLoop_mispartitioned env exec t _ table m hp' hm]; exact huniq

theorem lastProcessedWithKey_cons (key : Key) (t : Tuple) (rest : List Tuple) :
    lastProcessedWithKey env exec key (t :: rest) =
      match lastProcessedWithKey env exec key rest with
      | some t' => some t'
      | none =>
        if UpsertExecutor.isProcessed env exec t = true ∧ env.primaryKey t = key then some t
        else none := by
  unfold lastProcessedWithKey
  by_cases hp : UpsertExecutor.isProcessed env exec t = true
  · by_cases hk : env.primaryKey t = key
    · simp only [List.filter_cons_of_pos hp, hk, decide_True, List.filter_cons_of_pos,
        List.getLast?_cons]
      cases ((rest.filter (UpsertExecutor.isProcessed env exec)).filter
        (fun t => decide (env.primaryKey t = key))).getLast? <;> simp [hp]
    · simp only [List.filter_cons_of_pos hp]
      rw [List.filter_cons_of_neg (by simpa using hk)]
      cases ((rest.filter (UpsertExecutor.isProcessed env exec)).filter
        (fun t => decide (env.primaryKey t = key))).getLast? <;> simp [hk]
  · rw [List.filter_cons_of_neg hp]
    cases ((rest.filter (UpsertExecutor.isProcessed env exec)).filter
      (fun t => decide (env.primaryKey t = key))).getLast? <;> simp [hp]

/-- Last write wins: after a loop that returns `true`, the rows with a given primary
key are the last processed input row with that key when there is one, and the rows
the table had otherwise. -/
theorem upsertLoop_last_write (input : List Tuple) :
    ∀ (table table' : PersistentTable Tuple) (m n : Int),
    table.hasPrimaryKeyIndex = true → (table.rows.map env.primaryKey).Nodup →
    UpsertExecutor.upsertLoop env exec input table m = (.returnedTrue n, table') →
    ∀ key : Key, table'.rows.filter (fun r => decide (env.primaryKey r = key)) =
      match lastProcessedWithKey env exec key input with
      | some t => [t]
      | none => table.rows.filter (fun r => decide (env.primaryKey r = key)) := by
  induction input with
  | nil =>
    intro table table' m n _ _ h key
    rw [upsertLoop_nil] at h
    cases h
    rfl
  | cons t rest ih =>
    intro table table' m n hpk huniq h key
    rw [lastProcessedWithKey_cons]
    by_cases hp : UpsertExecutor.isProcessed env exec t = true
    · rw [upsertLoop_processed env exec t _ table m hp, if_neg (by simp [hpk])] at h
      cases hr : table.upsertRow env t with
      | none => rw [hr] at h; cases h
      | some table₁ =>
        rw [hr] at h
        have hpk₁ := (upsertRow_static env table table₁ t hr).2.2.trans hpk
        have huniq₁ := upsertRow_nodup env table table₁ t hpk huniq hr
        have hrec := ih table₁ table' (m + 1) n hpk₁ huniq₁ h key
        rw [hrec, upsertRow_filter env table table₁ t hpk huniq hr key]
        cases lastProcessedWithKey env exec key rest with
        | some t' => rfl
        | none =>
          by_cases hk : env.primaryKey t = key
          · simp [hp, hk]
          · simp [hk]
    · have hp' : UpsertExecutor.isProcessed env exec t = false := by simpa using hp
      cases hm : exec.m_multiPartition with
      | true =>
        rw [upsertLoop_skip env exec t _ table m hp' hm] at h
        rw [ih table table' m n hpk huniq h key]
        cases lastProcessedWithKey env exec key rest with
        | some t' => rfl
        | none => simp [hp']
      | false =>
        rw [upsertLoop_mispartitioned env exec t _ table m hp' hm] at h
        cases h

end upsertState

/-! ## Upsert executor: the claims -/

section upsertClaims
variable {Tuple Key Value : Type} [DecidableEq Key]
variable (env : Collaborators Tuple Key Value) (exec : UpsertExecutor)

theorem p_execute_of_ne_nil (input : List Tuple) (table : PersistentTable Tuple)
    (h : input ≠ []) :
    UpsertExecutor.p_execute env exec input table =
      UpsertExecutor.upsertLoop env exec input table 0 := by
  unfold UpsertExecutor.p_execute
  rw [if_neg]
  intro ⟨_, h2⟩
  exact h (List.isEmpty_iff.1 h2)

theorem p_execute_release (input : List Tuple) (table : PersistentTable Tuple)
    (h : env.assertsEnabled = false) :
    UpsertExecutor.p_execute env exec input table =
      UpsertExecutor.upsertLoop env exec input table 0 := by
  unfold UpsertExecutor.p_execute
  rw [if_neg]
  intro ⟨h1, _⟩
  rw [h] at h1
  cases h1

/-- A run on the single row `t` against a table that already holds `t` as its only
row with that primary key takes the update branch and leaves the table as it is. -/
theorem p_execute_single_again (table : PersistentTable Tuple) (t : Tuple)
    (hpk : table.hasPrimaryKeyIndex = true)
    (hp : UpsertExecutor.isProcessed env exec t = true)
    (hrows : table.rows.filter (fun r => decide (env.primaryKey r = env.primaryKey t)) = [t]) :
    ∃ existsTuple, table.lookupTuple env t = some existsTuple ∧
      UpsertExecutor.p_execute env exec [t] table =
        (if env.acceptsUpdate table.rows existsTuple t = true then .returnedTrue 1
          else .returnedFalse, table) := by
  have hlook : table.lookupTuple env t =
      uniqueMatchingTuple env.primaryKey (env.primaryKey t) table.rows := by
    simp [PersistentTable.lookupTuple, hpk]
  cases hl : uniqueMatchingTuple env.primaryKey (env.primaryKey t) table.rows with
  | none =>
    have := filter_key_of_lookup_none env.primaryKey (env.primaryKey t) table.rows hl
    rw [hrows] at this
    cases this
  | some i =>
    refine ⟨i, hlook.trans hl, ?_⟩
    have hset := set_of_lookup_unique env.primaryKey t table.rows i hrows hl
    rw [p_execute_of_ne_nil _ _ _ _ (by simp), upsertLoop_processed env exec t [] table 0 hp,
      if_neg (by simp [hpk])]
    unfold PersistentTable.upsertRow
    rw [hlook, hl]
    simp only [PersistentTable.updateTupleWithSpecificIndexes, hset]
    split_ifs
    · rfl
    · rfl

/-- C3: for a target table with a primary-key index (its rows having distinct primary
keys) and a tuple `t` that gets past the partition check (local, or the table is not
partitioned), when `UpsertExecutor::p_execute` on input `[t]` has returned `true`,
leaving `table1`: the count is 1, `table1` holds exactly one row with the primary key
of `t`, namely `t`; a second run on `[t]` finds that row by its primary key, so it
takes the update branch, and it leaves the target equal to `table1` (same rows, same
row count, no second insert), returning `true` with a count of 1 when the table takes
the update. -/
theorem upsert_twice_idempotent (table table1 : PersistentTable Tuple) (t : Tuple) (n : Int)
    (hpk : table.hasPrimaryKeyIndex = true)
    (huniq : (table.rows.map env.primaryKey).Nodup)
    (hp : UpsertExecutor.isProcessed env exec t = true)
    (hfirst : UpsertExecutor.p_execute env exec [t] table = (.returnedTrue n, table1)) :
    n = 1 ∧
    table1.rows.filter (fun r => decide (env.primaryKey r = env.primaryKey t)) = [t] ∧
    ∃ existsTuple, table1.lookupTuple env t = some existsTuple ∧
      UpsertExecutor.p_execute env exec [t] table1 =
        (if env.acceptsUpdate table1.rows existsTuple t = true then .returnedTrue 1
          else .returnedFalse, table1) := by
  have hlook : table.lookupTuple env t =
      uniqueMatchingTuple env.primaryKey (env.primaryKey t) table.rows := by
    simp [PersistentTable.lookupTuple, hpk]
  rw [p_execute_of_ne_nil _ _ _ _ (by simp), upsertLoop_processed env exec t [] table 0 hp,
    if_neg (by simp [hpk])] at hfirst
  cases hrow : table.upsertRow env t with
  | none => rw [hrow] at hfirst; cases hfirst
  | some table' =>
    rw [hrow] at hfirst
    simp only [upsertLoop_nil] at hfirst
    have hn : n = 1 := by
      have := congrArg Prod.fst hfirst
      simp at this
      omega
    have ht : table' = table1 := congrArg Prod.snd hfirst
    subst ht
    have hpk' : table'.hasPrimaryKeyIndex = true :=
      (upsertRow_static env table table' t hrow).2.2.trans hpk
    have hrows : table'.rows.filter
        (fun r => decide (env.primaryKey r = env.primaryKey t)) = [t] := by
      unfold PersistentTable.upsertRow at hrow
      rw [hlook] at hrow
      cases hl : uniqueMatchingTuple env.primaryKey (env.primaryKey t) table.rows with
      | none =>
        rw [hl] at hrow
        simp only [PersistentTable.insertTuple] at hrow
        split_ifs at hrow
        cases hrow
        simp [List.filter_append,
          filter_key_of_lookup_none env.primaryKey (env.primaryKey t) table.rows hl]
      | some i =>
        rw [hl] at hrow
        simp only [PersistentTable.updateTupleWithSpecificIndexes] at hrow
        split_ifs at hrow
        cases hrow
        exact filter_key_set env.primaryKey t table.rows i huniq hl
    exact ⟨hn, hrows, p_execute_single_again env exec table' t hpk' hp hrows⟩

theorem upsert_twice_idempotent_witness :
    (1 : Int) = 1 ∧
    ([(4, 0), (2, 7)].filter
      (fun r => decide ((exampleEnv true).primaryKey r = (exampleEnv true).primaryKey (2, 7)))
        = [(2, 7)]) ∧
    ∃ existsTuple,
      (⟨"T", 0, true, [(4, 0), (2, 7)]⟩ : PersistentTable (Int × Int)).lookupTuple
        (exampleEnv true) (2, 7) = some existsTuple ∧
      UpsertExecutor.p_execute (exampleEnv true) ⟨0, false, false⟩ [(2, 7)]
          ⟨"T", 0, true, [(4, 0), (2, 7)]⟩ =
        (if (exampleEnv true).acceptsUpdate [(4, 0), (2, 7)] existsTuple (2, 7) = true
          then .returnedTrue 1 else .returnedFalse, ⟨"T", 0, true, [(4, 0), (2, 7)]⟩) :=
  upsert_twice_idempotent (exampleEnv true) ⟨0, false, false⟩ ⟨"T", 0, true, [(4, 0)]⟩
    ⟨"T", 0, true, [(4, 0), (2, 7)]⟩ (2, 7) 1 rfl (by decide) rfl rfl

/-- C4: for a target table with a primary-key index, when `UpsertExecutor::p_execute`
has gone through the rows `pre` (leaving `table'`, counter `m`) and the next row `t`
gets past the partition check: if the primary-key lookup finds no row and the table
takes the insert, the run goes on with the table having gained exactly `t` and the
counter at `m + 1`; if the lookup finds a row and the table takes the update, that
row has the primary key of `t`, and the run goes on with that row replaced by `t`,
the row count unchanged, and the counter at `m + 1`. In particular input `[t]`
against a target whose only row `old` has the primary key of `t` leaves exactly the
row `t` and reports a modified count of 1. -/
theorem upsert_row_insert_or_update (table table' : PersistentTable Tuple)
    (pre rest : List Tuple) (t : Tuple) (m : Int)
    (hpk : table.hasPrimaryKeyIndex = true)
    (hpre : UpsertExecutor.upsertLoop env exec pre table 0 = (.returnedTrue m, table'))
    (hp : UpsertExecutor.isProcessed env exec t = true) :
    (table'.lookupTuple env t = none → env.acceptsInsert table'.rows t = true →
      UpsertExecutor.p_execute env exec (pre ++ t :: rest) table =
        UpsertExecutor.upsertLoop env exec rest
          { table' with rows := table'.rows ++ [t] } (m + 1)) ∧
    (∀ existsTuple, table'.lookupTuple env t = some existsTuple →
      env.acceptsUpdate table'.rows existsTuple t = true →
      (∃ old, table'.rows[existsTuple]? = some old ∧
        env.primaryKey old = env.primaryKey t) ∧
      (table'.rows.set existsTuple t).length = table'.rows.length ∧
      UpsertExecutor.p_execute env exec (pre ++ t :: rest) table =
        UpsertExecutor.upsertLoop env exec rest
          { table' with rows := table'.rows.set existsTuple t } (m + 1)) ∧
    (∀ old, table.rows = [old] → env.primaryKey old = env.primaryKey t →
      env.acceptsUpdate [old] 0 t = true →
      UpsertExecutor.p_execute env exec [t] table =
        (.returnedTrue 1, { table with rows := [t] })) := by
  have hpk' : table'.hasPrimaryKeyIndex = true := by
    have := (upsertLoop_static env exec pre table 0).2.2
    rw [hpre] at this
    exact this.trans hpk
  have hstep : UpsertExecutor.p_execute env exec (pre ++ t :: rest) table =
      match table'.upsertRow env t with
      | none => (.returnedFalse, table')
      | some table'' => UpsertExecutor.upsertLoop env exec rest table'' (m + 1) := by
    rw [p_execute_of_ne_nil _ _ _ _ (by simp), upsertLoop_append, hpre]
    simp only
    rw [upsertLoop_processed env exec t rest table' m hp, if_neg (by simp [hpk'])]
    try rfl
  refine ⟨?_, ?_, ?_⟩
  · intro hl hacc
    rw [hstep]
    simp [PersistentTable.upsertRow, hl, PersistentTable.insertTuple, hacc]
  · intro i hl hacc
    refine ⟨?_, by simp, ?_⟩
    · have hl' : uniqueMatchingTuple env.primaryKey (env.primaryKey t) table'.rows = some i := by
        simpa [PersistentTable.lookupTuple, hpk'] using hl
      exact uniqueMatchingTuple_some env.primaryKey (env.primaryKey t) table'.rows i hl'
    · rw [hstep]
      simp [PersistentTable.upsertRow, hl, PersistentTable.updateTupleWithSpecificIndexes, hacc]
  · intro old hrows hkey hacc
    rw [p_execute_of_ne_nil _ _ _ _ (by simp), upsertLoop_processed env exec t [] table 0 hp,
      if_neg (by simp [hpk])]
    simp [PersistentTable.upsertRow, PersistentTable.lookupTuple, hpk, hrows,
      uniqueMatchingTuple, hkey, PersistentTable.updateTupleWithSpecificIndexes, hacc,
      upsertLoop_nil]

theorem upsert_row_insert_or_update_witness :
    UpsertExecutor.p_execute (exampleTextEnv true) ⟨-1, false, false⟩ [(1, "x")]
      ⟨"T", -1, true, [(1, "old")]⟩ = (.returnedTrue 1, ⟨"T", -1, true, [(1, "x")]⟩) :=
  (upsert_row_insert_or_update (exampleTextEnv true) ⟨-1, false, false⟩
    ⟨"T", -1, true, [(1, "old")]⟩ ⟨"T", -1, true, [(1, "old")]⟩ [] [] (1, "x") 0
    rfl rfl rfl).2.2 (1, "old") rfl rfl rfl

/-- C6: on a partitioned target table under a statement that is not
multi-partition, when `UpsertExecutor::p_execute` has gone through the rows `pre`
(leaving the table `table'`) and reaches a row `t` whose partition value is not
local, it raises the mispartitioned-tuple constraint failure carrying the target
table and `t`, and the table it leaves is `table'`: nothing is inserted or updated
for `t` or for any row of `post`. -/
theorem upsert_mispartitioned_raises (node : UpsertPlanNode)
    (inputColumnIsVarchar : Int → Bool) (table table' : PersistentTable Tuple)
    (pre post : List Tuple) (t : Tuple) (m : Int)
    (hpart : table.partitionColumn ≠ -1) (hsingle : node.isMultiPartition = false)
    (hpre : UpsertExecutor.upsertLoop env
      (UpsertExecutor.p_initMore node table inputColumnIsVarchar) pre table 0 =
        (.returnedTrue m, table'))
    (hlocal : env.isLocalSite (env.getNValue t table.partitionColumn) = false) :
    UpsertExecutor.p_execute env
      (UpsertExecutor.p_initMore node table inputColumnIsVarchar) (pre ++ t :: post) table =
      (.constraintFailure table.name t mispartitionedMessage, table') ∧
    table'.name = table.name := by
  have hp : UpsertExecutor.isProcessed env
      (UpsertExecutor.p_initMore node table inputColumnIsVarchar) t = false := by
    simp [UpsertExecutor.isProcessed, UpsertExecutor.p_initMore, hpart, hlocal]
  have hname := (upsertLoop_static env
    (UpsertExecutor.p_initMore node table inputColumnIsVarchar) pre table 0).1
  rw [hpre] at hname
  have hname' : table'.name = table.name := hname
  refine ⟨?_, hname'⟩
  rw [p_execute_of_ne_nil _ _ _ _ (by simp), upsertLoop_append, hpre]
  simp only
  rw [upsertLoop_mispartitioned _ _ t post table' m hp hsingle, hname']

theorem upsert_mispartitioned_raises_witness :
    UpsertExecutor.p_execute (exampleEnv true)
      (UpsertExecutor.p_initMore ⟨false⟩ (⟨"T", 0, true, [(4, 0)]⟩ : PersistentTable (Int × Int))
        (fun _ => false))
      ([(2, 7), (4, 8)] ++ (3, 9) :: [(6, 1)]) ⟨"T", 0, true, [(4, 0)]⟩ =
      (.constraintFailure "T" (3, 9) mispartitionedMessage, ⟨"T", 0, true, [(4, 8), (2, 7)]⟩) ∧
    (⟨"T", 0, true, [(4, 8), (2, 7)]⟩ : PersistentTable (Int × Int)).name = "T" :=
  upsert_mispartitioned_raises (exampleEnv true) ⟨false⟩ (fun _ => false)
    ⟨"T", 0, true, [(4, 0)]⟩ ⟨"T", 0, true, [(4, 8), (2, 7)]⟩ [(2, 7), (4, 8)] [(6, 1)] (3, 9) 2
    (by decide) rfl rfl rfl

/-- C7 (as stated, refuted): in a build that keeps assertions, under a
multi-partition statement on a partitioned table, `UpsertExecutor::p_execute` on
the input `[(1, 5)]`, whose only row is not local, returns `true` with a count of 0,
while on that input with the non-local row removed it stops at
`assert(!input_table->isTempTableEmpty())`. -/
theorem upsert_skip_all_differs_from_empty_run :
    UpsertExecutor.p_execute (exampleEnv true)
      (UpsertExecutor.p_initMore ⟨true⟩ (⟨"T", 0, true, [(4, 0)]⟩ : PersistentTable (Int × Int))
        (fun _ => false))
      [(1, 5)] ⟨"T", 0, true, [(4, 0)]⟩ = (.returnedTrue 0, ⟨"T", 0, true, [(4, 0)]⟩) ∧
    UpsertExecutor.p_execute (exampleEnv true)
      (UpsertExecutor.p_initMore ⟨true⟩ (⟨"T", 0, true, [(4, 0)]⟩ : PersistentTable (Int × Int))
        (fun _ => false))
      ([(1, 5)].filter (UpsertExecutor.isProcessed (exampleEnv true)
        (UpsertExecutor.p_initMore ⟨true⟩
          (⟨"T", 0, true, [(4, 0)]⟩ : PersistentTable (Int × Int)) (fun _ => false))))
      ⟨"T", 0, true, [(4, 0)]⟩ = (.assertionFailed, ⟨"T", 0, true, [(4, 0)]⟩) :=
  ⟨rfl, rfl⟩

/-- C7 (amended): under a multi-partition statement, non-local rows produce no
mutation and no error. On an input with at least one local row, and on any input
in a build without assertions, `UpsertExecutor::p_execute` yields the same target
table, the same result and the same modified-row count as on that input with every
non-local row removed; on a non-empty input whose rows are all non-local it returns
`true` with the table unchanged and a count of 0. -/
theorem upsert_nonlocal_rows_skipped (node : UpsertPlanNode)
    (inputColumnIsVarchar : Int → Bool) (table : PersistentTable Tuple) (input : List Tuple)
    (hmulti : node.isMultiPartition = true) :
    ((env.assertsEnabled = false ∨
        ∃ t ∈ input, UpsertExecutor.isProcessed env
          (UpsertExecutor.p_initMore node table inputColumnIsVarchar) t = true) →
      UpsertExecutor.p_execute env
        (UpsertExecutor.p_initMore node table inputColumnIsVarchar) input table =
      UpsertExecutor.p_execute env
        (UpsertExecutor.p_initMore node table inputColumnIsVarchar)
        (input.filter (UpsertExecutor.isProcessed env
          (UpsertExecutor.p_initMore node table inputColumnIsVarchar))) table) ∧
    (input ≠ [] →
      (∀ t ∈ input, UpsertExecutor.isProcessed env
        (UpsertExecutor.p_initMore node table inputColumnIsVarchar) t = false) →
      UpsertExecutor.p_execute env
        (UpsertExecutor.p_initMore node table inputColumnIsVarchar) input table =
        (.returnedTrue 0, table)) := by
  have hm : (UpsertExecutor.p_initMore node table inputColumnIsVarchar).m_multiPartition
      = true := hmulti
  constructor
  · rintro (hrel | ⟨t, ht, hp⟩)
    · rw [p_execute_release _ _ _ _ hrel, p_execute_release _ _ _ _ hrel]
      exact upsertLoop_filter env _ hm input table 0
    · have h1 : input ≠ [] := List.ne_nil_of_mem ht
      have h2 : input.filter (UpsertExecutor.isProcessed env
          (UpsertExecutor.p_initMore node table inputColumnIsVarchar)) ≠ [] :=
        List.ne_nil_of_mem (List.mem_filter.2 ⟨ht, hp⟩)
      rw [p_execute_of_ne_nil _ _ _ _ h1, p_execute_of_ne_nil _ _ _ _ h2]
      exact upsertLoop_filter env _ hm input table 0
  · intro hne hall
    rw [p_execute_of_ne_nil _ _ _ _ hne, upsertLoop_filter env _ hm input table 0]
    have : input.filter (UpsertExecutor.isProcessed env
        (UpsertExecutor.p_initMore node table inputColumnIsVarchar)) = [] := by
      rw [List.filter_eq_nil_iff]
      intro t ht
      simp [hall t ht]
    rw [this]
    rfl

theorem upsert_nonlocal_rows_skipped_witness :
    UpsertExecutor.p_execute (exampleEnv true)
      (UpsertExecutor.p_initMore ⟨true⟩ (⟨"T", 0, true, [(4, 0)]⟩ : PersistentTable (Int × Int))
        (fun _ => false))
      [(1, 5), (4, 8), (3, 3), (2, 7), (5, 5)] ⟨"T", 0, true, [(4, 0)]⟩ =
    UpsertExecutor.p_execute (exampleEnv true)
      (UpsertExecutor.p_initMore ⟨true⟩ (⟨"T", 0, true, [(4, 0)]⟩ : PersistentTable (Int × Int))
        (fun _ => false))
      [(4, 8), (2, 7)] ⟨"T", 0, true, [(4, 0)]⟩ :=
  (upsert_nonlocal_rows_skipped (exampleEnv true) ⟨true⟩ (fun _ => false)
    ⟨"T", 0, true, [(4, 0)]⟩ [(1, 5), (4, 8), (3, 3), (2, 7), (5, 5)] rfl).1
    (Or.inr ⟨(4, 8), by decide, rfl⟩)

/-- C8: whenever `UpsertExecutor::p_execute` returns `true`, every input row that got
past the partition check has been inserted or updated, one after the other in input
order, the table left being the outcome of exactly these inserts and updates; and
the modified-row count reported is the number of these rows, which is the number of
input rows minus the rows skipped as non-local. Rows sharing a primary key are
inserted or updated, and counted, once each. -/
theorem upsert_modified_count (input : List Tuple) (table table' : PersistentTable Tuple)
    (n : Int)
    (h : UpsertExecutor.p_execute env exec input table = (.returnedTrue n, table')) :
    InsertedOrUpdatedInOrder env (input.filter (UpsertExecutor.isProcessed env exec))
      table table' ∧
    n = ((input.filter (UpsertExecutor.isProcessed env exec)).length : Int) ∧
    n = (input.length : Int) -
      ((input.filter (fun t => !UpsertExecutor.isProcessed env exec t)).length : Int) := by
  have hloop : UpsertExecutor.upsertLoop env exec input table 0 = (.returnedTrue n, table') := by
    unfold UpsertExecutor.p_execute at h
    split_ifs at h
    · cases h
    · exact h
  have h1 := upsertLoop_count env exec input table table' 0 n hloop
  have h2 := filter_length_split (UpsertExecutor.isProcessed env exec) input
  refine ⟨upsertLoop_insertedOrUpdated env exec input table table' 0 n hloop, ?_, ?_⟩
  · simpa using h1
  · rw [h1]; omega

theorem upsert_modified_count_witness :
    InsertedOrUpdatedInOrder (exampleEnv true) [(4, 8), (2, 7), (4, 9)]
      ⟨"T", 0, true, [(4, 0)]⟩ ⟨"T", 0, true, [(4, 9), (2, 7)]⟩ ∧
    (3 : Int) = (([(4, 8), (1, 5), (2, 7), (4, 9)].filter (UpsertExecutor.isProcessed
      (exampleEnv true) (UpsertExecutor.p_initMore ⟨true⟩
        (⟨"T", 0, true, [(4, 0)]⟩ : PersistentTable (Int × Int)) (fun _ => false)))).length : Int) ∧
    (3 : Int) = (([(4, 8), (1, 5), (2, 7), (4, 9)] : List (Int × Int)).length : Int) -
      (([(4, 8), (1, 5), (2, 7), (4, 9)].filter (fun t => !UpsertExecutor.isProcessed
      (exampleEnv true) (UpsertExecutor.p_initMore ⟨true⟩
        (⟨"T", 0, true, [(4, 0)]⟩ : PersistentTable (Int × Int)) (fun _ => false)) t)).length : Int) :=
  upsert_modified_count (exampleEnv true)
    (UpsertExecutor.p_initMore ⟨true⟩ (⟨"T", 0, true, [(4, 0)]⟩ : PersistentTable (Int × Int))
      (fun _ => false))
    [(4, 8), (1, 5), (2, 7), (4, 9)] ⟨"T", 0, true, [(4, 0)]⟩ ⟨"T", 0, true, [(4, 9), (2, 7)]⟩ 3 rfl

/-- C9: when `UpsertExecutor::p_execute` has gone through the rows `pre` (leaving the
table `table'`) and the target table rejects the insert or the update of the next
processed row `t`, the call returns `false` without reporting a modified-row count,
and the table it leaves is `table'`: the mutations of the earlier rows stay applied
and no row of `post` is processed. -/
theorem upsert_rejected_returns_false (table table' : PersistentTable Tuple)
    (pre post : List Tuple) (t : Tuple) (m : Int)
    (hpk : table.hasPrimaryKeyIndex = true)
    (hpre : UpsertExecutor.upsertLoop env exec pre table 0 = (.returnedTrue m, table'))
    (hp : UpsertExecutor.isProcessed env exec t = true)
    (hrej : (table'.lookupTuple env t = none ∧ table'.insertTuple env t = none) ∨
      (∃ existsTuple, table'.lookupTuple env t = some existsTuple ∧
        table'.updateTupleWithSpecificIndexes env existsTuple t = none)) :
    UpsertExecutor.p_execute env exec (pre ++ t :: post) table = (.returnedFalse, table') := by
  have hpk' : table'.hasPrimaryKeyIndex = true := by
    have := (upsertLoop_static env exec pre table 0).2.2
    rw [hpre] at this
    exact this.trans hpk
  have hrow : table'.upsertRow env t = none := by
    unfold PersistentTable.upsertRow
    rcases hrej with ⟨h1, h2⟩ | ⟨i, h1, h2⟩
    · rw [h1]; exact h2
    · rw [h1]; exact h2
  rw [p_execute_of_ne_nil _ _ _ _ (by simp), upsertLoop_append, hpre]
  simp only
  rw [upsertLoop_processed env exec t post table' m hp, if_neg (by simp [hpk']), hrow]

theorem upsert_rejected_returns_false_witness :
    UpsertExecutor.p_execute (exampleEnv true)
      (UpsertExecutor.p_initMore ⟨true⟩ (⟨"T", 0, true, [(4, 0)]⟩ : PersistentTable (Int × Int))
        (fun _ => false))
      ([(2, 7), (4, 8), (6, 1)] ++ (8, 2) :: [(2, 9)]) ⟨"T", 0, true, [(4, 0)]⟩ =
      (.returnedFalse, ⟨"T", 0, true, [(4, 8), (2, 7), (6, 1)]⟩) :=
  upsert_rejected_returns_false (exampleEnv true) _ ⟨"T", 0, true, [(4, 0)]⟩
    ⟨"T", 0, true, [(4, 8), (2, 7), (6, 1)]⟩ [(2, 7), (4, 8), (6, 1)] [(2, 9)] (8, 2) 3
    rfl rfl rfl (Or.inl ⟨rfl, rfl⟩)

/-- C10 (as stated, refuted): on a target table without a primary-key index, under a
multi-partition statement, `p_initMore` then `p_execute` on an input whose only row
is not local completes successfully: it returns `true` with a count of 0. -/
theorem upsert_without_primary_key_completes :
    UpsertExecutor.p_execute (exampleEnv true)
      (UpsertExecutor.p_initMore ⟨true⟩ (⟨"T", 0, false, [(4, 0)]⟩ : PersistentTable (Int × Int))
        (fun _ => false))
      [(1, 5)] ⟨"T", 0, false, [(4, 0)]⟩ = (.returnedTrue 0, ⟨"T", 0, false, [(4, 0)]⟩) ∧
    (⟨"T", 0, false, [(4, 0)]⟩ : PersistentTable (Int × Int)).hasPrimaryKeyIndex = false :=
  ⟨rfl, rfl⟩

/-- C10 (amended): on a target table without a primary-key index, in a build that
keeps assertions, no run of `UpsertExecutor` (`p_initMore` then `p_execute`) mutates
the table, none returns `false`, and a run returns `true` only when every input row
was skipped as non-local, the count then being 0: the absence of the index is not
looked at by `p_initMore`; it stops `p_execute` at the assertion for the first row
that gets past the partition check, before any insert or update. -/
theorem upsert_without_primary_key (hassert : env.assertsEnabled = true)
    (node : UpsertPlanNode) (inputColumnIsVarchar : Int → Bool)
    (input : List Tuple) (table : PersistentTable Tuple)
    (hpk : table.hasPrimaryKeyIndex = false) :
    (UpsertExecutor.p_execute env
      (UpsertExecutor.p_initMore node table inputColumnIsVarchar) input table).2 = table ∧
    (UpsertExecutor.p_execute env
      (UpsertExecutor.p_initMore node table inputColumnIsVarchar) input table).1
        ≠ .returnedFalse ∧
    (∀ n, (UpsertExecutor.p_execute env
        (UpsertExecutor.p_initMore node table inputColumnIsVarchar) input table).1
          = .returnedTrue n →
      n = 0 ∧ ∀ t ∈ input, UpsertExecutor.isProcessed env
        (UpsertExecutor.p_initMore node table inputColumnIsVarchar) t = false) := by
  unfold UpsertExecutor.p_execute
  split_ifs
  · exact ⟨rfl, by simp, fun n h => by cases h⟩
  · exact upsertLoop_without_primary_key env _ hassert input table 0 hpk

theorem upsert_without_primary_key_witness :
    (UpsertExecutor.p_execute (exampleEnv true)
      (UpsertExecutor.p_initMore ⟨true⟩ (⟨"T", 0, false, [(4, 0)]⟩ : PersistentTable (Int × Int))
        (fun _ => false)) [(1, 5), (2, 7)] ⟨"T", 0, false, [(4, 0)]⟩).2
      = ⟨"T", 0, false, [(4, 0)]⟩ ∧
    (UpsertExecutor.p_execute (exampleEnv true)
      (UpsertExecutor.p_initMore ⟨true⟩ (⟨"T", 0, false, [(4, 0)]⟩ : PersistentTable (Int × Int))
        (fun _ => false)) [(1, 5), (2, 7)] ⟨"T", 0, false, [(4, 0)]⟩).1
      ≠ .returnedFalse ∧
    (∀ n, (UpsertExecutor.p_execute (exampleEnv true)
      (UpsertExecutor.p_initMore ⟨true⟩ (⟨"T", 0, false, [(4, 0)]⟩ : PersistentTable (Int × Int))
        (fun _ => false)) [(1, 5), (2, 7)] ⟨"T", 0, false, [(4, 0)]⟩).1
          = .returnedTrue n →
      n = 0 ∧ ∀ t ∈ [(1, 5), (2, 7)], UpsertExecutor.isProcessed (exampleEnv true)
        (UpsertExecutor.p_initMore ⟨true⟩
          (⟨"T", 0, false, [(4, 0)]⟩ : PersistentTable (Int × Int)) (fun _ => false)) t = false) :=
  upsert_without_primary_key (exampleEnv true) rfl ⟨true⟩ (fun _ => false) [(1, 5), (2, 7)]
    ⟨"T", 0, false, [(4, 0)]⟩ rfl

/-- C19: primary-key uniqueness is an invariant of `UpsertExecutor::p_execute` on a
target table with a primary-key index (and, in a build that keeps assertions, on any
target table): if no two rows of the target share a primary key before the call,
none do afterwards, whatever the input, repeated keys included, and whether the call
returns `true`, returns `false`, raises or stops at an assertion. -/
theorem upsert_preserves_key_uniqueness (input : List Tuple) (table : PersistentTable Tuple)
    (hpk : table.hasPrimaryKeyIndex = true ∨ env.assertsEnabled = true)
    (huniq : (table.rows.map env.primaryKey).Nodup) :
    ((UpsertExecutor.p_execute env exec input table).2.rows.map env.primaryKey).Nodup := by
  unfold UpsertExecutor.p_execute
  split_ifs
  · exact huniq
  · cases hidx : table.hasPrimaryKeyIndex with
    | true => exact upsertLoop_nodup env exec input table 0 hidx huniq
    | false =>
      have hassert : env.assertsEnabled = true := by
        rcases hpk with h | h
        · rw [hidx] at h; cases h
        · exact h
      rw [(upsertLoop_without_primary_key env exec hassert input table 0 hidx).1]
      exact huniq

theorem upsert_preserves_key_uniqueness_witness :
    ((UpsertExecutor.p_execute (exampleEnv true)
      (UpsertExecutor.p_initMore ⟨false⟩ (⟨"T", 0, true, [(4, 0), (6, 6)]⟩ :
        PersistentTable (Int × Int)) (fun _ => false))
      [(4, 8), (2, 7), (4, 9), (3, 3), (2, 1)] ⟨"T", 0, true, [(4, 0), (6, 6)]⟩).2.rows.map
        (exampleEnv true).primaryKey).Nodup :=
  upsert_preserves_key_uniqueness (exampleEnv true) _ _ ⟨"T", 0, true, [(4, 0), (6, 6)]⟩
    (Or.inl rfl) (by decide)

/-- C20: after `UpsertExecutor::p_execute` has returned `true` on a target table with a
primary-key index whose rows had distinct primary keys: for every primary key, the
rows of the target with that key are exactly the last processed input row with that
key when some processed input row has it (last write wins), and exactly the rows the
target had before otherwise; so a row whose primary key matches no processed input
row is in the target afterwards exactly when it was before, and every processed
input row's key is held by exactly one row. -/
theorem upsert_last_write_wins (input : List Tuple) (table table' : PersistentTable Tuple)
    (n : Int) (hpk : table.hasPrimaryKeyIndex = true)
    (huniq : (table.rows.map env.primaryKey).Nodup)
    (h : UpsertExecutor.p_execute env exec input table = (.returnedTrue n, table')) :
    (∀ key : Key, table'.rows.filter (fun r => decide (env.primaryKey r = key)) =
      match lastProcessedWithKey env exec key input with
      | some t => [t]
      | none => table.rows.filter (fun r => decide (env.primaryKey r = key))) ∧
    (∀ r : Tuple,
      (∀ t ∈ input, UpsertExecutor.isProcessed env exec t = true →
        env.primaryKey t ≠ env.primaryKey r) →
      (r ∈ table'.rows ↔ r ∈ table.rows)) ∧
    (∀ t ∈ input, UpsertExecutor.isProcessed env exec t = true →
      ∃ t', lastProcessedWithKey env exec (env.primaryKey t) input = some t' ∧
        env.primaryKey t' = env.primaryKey t ∧
        table'.rows.filter (fun r => decide (env.primaryKey r = env.primaryKey t)) = [t']) := by
  have hloop : UpsertExecutor.upsertLoop env exec input table 0 = (.returnedTrue n, table') := by
    unfold UpsertExecutor.p_execute at h
    split_ifs at h
    · cases h
    · exact h
  have hmain := upsertLoop_last_write env exec input table table' 0 n hpk huniq hloop
  refine ⟨hmain, ?_, ?_⟩
  · intro r hr
    have hnone : lastProcessedWithKey env exec (env.primaryKey r) input = none := by
      unfold lastProcessedWithKey
      rw [List.getLast?_eq_none_iff, List.filter_eq_nil_iff]
      intro t ht
      have := List.mem_filter.1 ht
      simpa using hr t this.1 this.2
    have hkey := hmain (env.primaryKey r)
    rw [hnone] at hkey
    have h1 : r ∈ table'.rows ↔
        r ∈ table'.rows.filter (fun x => decide (env.primaryKey x = env.primaryKey r)) := by
      simp [List.mem_filter]
    have h2 : r ∈ table.rows ↔
        r ∈ table.rows.filter (fun x => decide (env.primaryKey x = env.primaryKey r)) := by
      simp [List.mem_filter]
    rw [h1, h2, hkey]
  · intro t ht hp
    have hmem : t ∈ (input.filter (UpsertExecutor.isProcessed env exec)).filter
        (fun x => decide (env.primaryKey x = env.primaryKey t)) :=
      List.mem_filter.2 ⟨List.mem_filter.2 ⟨ht, hp⟩, by simp⟩
    cases hlast : lastProcessedWithKey env exec (env.primaryKey t) input with
    | none =>
      unfold lastProcessedWithKey at hlast
      rw [List.getLast?_eq_none_iff] at hlast
      rw [hlast] at hmem
      cases hmem
    | some t' =>
      have hkey := hmain (env.primaryKey t)
      rw [hlast] at hkey
      refine ⟨t', rfl, ?_, hkey⟩
      have hin : t' ∈ (input.filter (UpsertExecutor.isProcessed env exec)).filter
          (fun x => decide (env.primaryKey x = env.primaryKey t)) := by
        unfold lastProcessedWithKey at hlast
        exact List.mem_of_getLast?_eq_some hlast
      simpa using (List.mem_filter.1 hin).2

theorem upsert_last_write_wins_witness :
    ([(4, 9), (6, 6), (2, 7)].filter
        (fun r => decide ((exampleEnv true).primaryKey r = 4)) = [(4, 9)]) ∧
    (((6, 6) : Int × Int) ∈ [(4, 9), (6, 6), (2, 7)] ↔ ((6, 6) : Int × Int) ∈ [(4, 0), (6, 6)]) ∧
    (∃ t', lastProcessedWithKey (exampleEnv true)
          (UpsertExecutor.p_initMore ⟨true⟩ (⟨"T", 0, true, [(4, 0), (6, 6)]⟩ :
            PersistentTable (Int × Int)) (fun _ => false))
          ((exampleEnv true).primaryKey (4, 8)) [(4, 8), (1, 5), (2, 7), (4, 9)] = some t' ∧
        (exampleEnv true).primaryKey t' = (exampleEnv true).primaryKey (4, 8) ∧
        [(4, 9), (6, 6), (2, 7)].filter
          (fun r => decide ((exampleEnv true).primaryKey r = (exampleEnv true).primaryKey (4, 8)))
            = [t']) :=
  have w := upsert_last_write_wins (exampleEnv true)
    (UpsertExecutor.p_initMore ⟨true⟩ (⟨"T", 0, true, [(4, 0), (6, 6)]⟩ :
      PersistentTable (Int × Int)) (fun _ => false))
    [(4, 8), (1, 5), (2, 7), (4, 9)] ⟨"T", 0, true, [(4, 0), (6, 6)]⟩
    ⟨"T", 0, true, [(4, 9), (6, 6), (2, 7)]⟩ 3 rfl (by decide) rfl
  ⟨w.1 4, w.2.1 (6, 6) (by decide), w.2.2 (4, 8) (by decide) rfl⟩

end upsertClaims

/-! ## Properties of the index-scan plan node -/

section debugInfo
variable {Expr LookupType Scan : Type}

theorem textContains_refl (s : String) : textContains s s := List.infix_refl _

theorem textContains_append_left (a b p : String) (h : textContains a p) :
    textContains (a ++ b) p := by
  unfold textContains at h ⊢
  rw [String.data_append]
  exact h.trans (List.prefix_append _ _).isInfix

theorem textContains_append_right (a b p : String) (h : textContains b p) :
    textContains (a ++ b) p := by
  unfold textContains at h ⊢
  rw [String.data_append]
  exact h.trans (List.suffix_append _ _).isInfix

theorem textContains_foldl (p : String) (l : List String) :
    ∀ acc : String, (textContains acc p ∨ p ∈ l) →
      textContains (l.foldl (fun r s => r ++ s) acc) p := by
  induction l with
  | nil =>
    intro acc h
    rcases h with h | h
    · exact h
    · cases h
  | cons x l ih =>
    intro acc h
    rw [List.foldl_cons]
    apply ih
    rcases h with h | h
    · exact Or.inl (textContains_append_left _ _ _ h)
    · rcases List.mem_cons.1 h with rfl | h
      · exact Or.inl (textContains_append_right _ _ _ (textContains_refl _))
      · exact Or.inr h

theorem textContains_join (p : String) (l : List String) (h : p ∈ l) :
    textContains (String.join l) p :=
  textContains_foldl p l "" (Or.inr h)

theorem textContains_debugSlot (c : DebugCollaborators Expr LookupType Scan) (spacer : String)
    (e : Expr) : textContains (debugSlot c spacer (some e)) (c.debug e spacer) :=
  textContains_append_right _ _ _ (textContains_refl _)

/-- What `IndexScanPlanNode::debugInfo` does render: the index name, the lookup type,
the sort direction, the dump of every search-key expression, and the dumps of the end
expression, of the skip-null predicate and of the post-scan predicate when present. -/
theorem debugInfo_contains (c : DebugCollaborators Expr LookupType Scan)
    (node : IndexScanPlanNode Expr LookupType Scan) (spacer : String) :
    textContains (node.debugInfo c spacer) node.m_target_index_name ∧
    textContains (node.debugInfo c spacer) (c.lookupTypeText node.m_lookup_type) ∧
    textContains (node.debugInfo c spacer) (c.sortDirectionText node.m_sort_direction) ∧
    (∀ e ∈ node.m_search_key_expressions,
      textContains (node.debugInfo c spacer) (c.debug e spacer)) ∧
    (∀ e, node.m_end_expression = some e →
      textContains (node.debugInfo c spacer) (c.debug e spacer)) ∧
    (∀ e, node.m_skip_null_predicate = some e →
      textContains (node.debugInfo c spacer) (c.debug e spacer)) ∧
    (∀ e, c.getPredicate node.scan = some e →
      textContains (node.debugInfo c spacer) (c.debug e spacer)) := by
  unfold IndexScanPlanNode.debugInfo
  refine ⟨?_, ?_, ?_, ?_, ?_, ?_, ?_⟩
  · iterate 10 apply textContains_append_left
    apply textContains_append_right
    apply textContains_append_left
    apply textContains_append_right
    exact textContains_refl _
  · iterate 9 apply textContains_append_left
    apply textContains_append_right
    apply textContains_append_left
    apply textContains_append_right
    exact textContains_refl _
  · iterate 8 apply textContains_append_left
    apply textContains_append_right
    apply textContains_append_left
    apply textContains_append_right
    exact textContains_refl _
  · intro e he
    iterate 6 apply textContains_append_left
    apply textContains_append_right
    exact textContains_join _ _ (List.mem_map_of_mem _ he)
  · intro e he
    rw [he]
    iterate 4 apply textContains_append_left
    apply textContains_append_right
    exact textContains_debugSlot c spacer e
  · intro e he
    rw [he]
    iterate 2 apply textContains_append_left
    apply textContains_append_right
    exact textContains_debugSlot c spacer e
  · intro e he
    rw [he]
    apply textContains_append_right
    exact textContains_debugSlot c spacer e

end debugInfo

section decode
variable {Json Expr LookupType Scan : Type}

theorem lookup_withoutKey (key key' : String) (obj : PlannerDomValue Json) :
    (withoutKey key obj).lookup key' = if key' = key then none else obj.lookup key' := by
  induction obj with
  | nil => simp [withoutKey]
  | cons kv rest ih =>
    obtain ⟨k, v⟩ := kv
    unfold withoutKey at ih ⊢
    by_cases hk : k = key
    · subst hk
      rw [List.filter_cons_of_neg (by simp), ih]
      by_cases hk' : key' = k
      · simp [hk']
      · have : (key' == k) = false := by simpa using hk'
        simp [hk', List.lookup_cons, this]
    · rw [List.filter_cons_of_pos (by simpa using hk)]
      by_cases hk' : key' = key
      · subst hk'
        have : (key' == k) = false := by simpa using fun h => hk h.symm
        simp [List.lookup_cons, this, ih]
      · simp only [List.lookup_cons, ih, if_neg hk']

theorem lookup_withoutOptionalKeys (noEnd noInitial noSkipNull : Bool) (key : String)
    (obj : PlannerDomValue Json) :
    (withoutOptionalKeys noEnd noInitial noSkipNull obj).lookup key =
      if (noEnd = true ∧ key = "END_EXPRESSION") ∨
          (noInitial = true ∧ key = "INITIAL_EXPRESSION") ∨
          (noSkipNull = true ∧ key = "SKIP_NULL_PREDICATE") then none
      else obj.lookup key := by
  unfold withoutOptionalKeys
  cases noEnd <;> cases noInitial <;> cases noSkipNull <;>
    simp only [lookup_withoutKey, if_true, if_false, Bool.false_eq_true, false_and, true_and,
      false_or, or_false] <;>
    by_cases h1 : key = "END_EXPRESSION" <;> by_cases h2 : key = "INITIAL_EXPRESSION" <;>
    by_cases h3 : key = "SKIP_NULL_PREDICATE" <;> simp [h1, h2, h3]

/-- Decoding succeeds exactly when the base class and each key decode, and the node
then holds what was read from each key. -/
theorem loadFromJSONObject_eq_ok (c : DecodeCollaborators Json Expr LookupType Scan)
    (obj : PlannerDomValue Json) (node : IndexScanPlanNode Expr LookupType Scan) :
    IndexScanPlanNode.loadFromJSONObject c obj = .ok node ↔
      c.scanLoadFromJSONObject obj = .ok node.scan ∧
      (∃ s, valueForKeyAsStr obj "LOOKUP_TYPE" = .ok s ∧
        node.m_lookup_type = c.stringToIndexLookup s) ∧
      (∃ s, valueForKeyAsStr obj "SORT_DIRECTION" = .ok s ∧
        node.m_sort_direction = c.stringToSortDirection s) ∧
      valueForKeyAsStr obj "TARGET_INDEX_NAME" = .ok node.m_target_index_name ∧
      loadExpressionFromJSONObject c "END_EXPRESSION" obj = .ok node.m_end_expression ∧
      loadExpressionFromJSONObject c "INITIAL_EXPRESSION" obj = .ok node.m_initial_expression ∧
      loadExpressionFromJSONObject c "SKIP_NULL_PREDICATE" obj = .ok node.m_skip_null_predicate ∧
      loadExpressionsFromJSONObject c "SEARCHKEY_EXPRESSIONS" obj =
        .ok node.m_search_key_expressions := by
  unfold IndexScanPlanNode.loadFromJSONObject
  simp only [bind, Except.bind, pure, Except.pure]
  obtain ⟨scan, name, lt, sd, keys, e1, e2, e3⟩ := node
  cases c.scanLoadFromJSONObject obj with
  | error err => simp
  | ok scan' =>
    cases valueForKeyAsStr obj "LOOKUP_TYPE" with
    | error err => simp
    | ok l =>
      cases valueForKeyAsStr obj "SORT_DIRECTION" with
      | error err => simp
      | ok d =>
        cases valueForKeyAsStr obj "TARGET_INDEX_NAME" with
        | error err => simp
        | ok n =>
          cases loadExpressionFromJSONObject c "END_EXPRESSION" obj with
          | error err => simp
          | ok x1 =>
            cases loadExpressionFromJSONObject c "INITIAL_EXPRESSION" obj with
            | error err => simp
            | ok x2 =>
              cases loadExpressionFromJSONObject c "SKIP_NULL_PREDICATE" obj with
              | error err => simp
              | ok x3 =>
                cases loadExpressionsFromJSONObject c "SEARCHKEY_EXPRESSIONS" obj with
                | error err => simp
                | ok ks =>
                  simp only [Except.ok.injEq, IndexScanPlanNode.mk.injEq]
                  constructor
                  · rintro ⟨rfl, rfl, rfl, rfl, rfl, rfl, rfl, rfl⟩
                    exact ⟨rfl, ⟨l, rfl, rfl⟩, ⟨d, rfl, rfl⟩, rfl, rfl, rfl, rfl, rfl⟩
                  · rintro ⟨rfl, ⟨_, rfl, rfl⟩, ⟨_, rfl, rfl⟩, rfl, rfl, rfl, rfl, rfl⟩
                    exact ⟨rfl, rfl, rfl, rfl, rfl, rfl, rfl, rfl⟩

theorem valueForKeyAsStr_eq_ok (obj : PlannerDomValue Json) (key s : String) :
    valueForKeyAsStr obj key = .ok s ↔ obj.lookup key = some (.str s) := by
  unfold valueForKeyAsStr
  split
  · rename_i s' hs
    rw [hs]
    simp
  · rename_i hne
    constructor
    · intro h; cases h
    · intro h; exact absurd h (hne s)

theorem valueForKeyAsStr_withoutOptionalKeys (noEnd noInitial noSkipNull : Bool)
    (obj : PlannerDomValue Json) (key : String) (h1 : key ≠ "END_EXPRESSION")
    (h2 : key ≠ "INITIAL_EXPRESSION") (h3 : key ≠ "SKIP_NULL_PREDICATE") :
    valueForKeyAsStr (withoutOptionalKeys noEnd noInitial noSkipNull obj) key =
      valueForKeyAsStr obj key := by
  unfold valueForKeyAsStr
  rw [lookup_withoutOptionalKeys, if_neg (by simp [h1, h2, h3])]

theorem loadExpressionFromJSONObject_withoutOptionalKeys
    (c : DecodeCollaborators Json Expr LookupType Scan) (noEnd noInitial noSkipNull : Bool)
    (obj : PlannerDomValue Json) (label : String) :
    loadExpressionFromJSONObject c label (withoutOptionalKeys noEnd noInitial noSkipNull obj) =
      if (noEnd = true ∧ label = "END_EXPRESSION") ∨
          (noInitial = true ∧ label = "INITIAL_EXPRESSION") ∨
          (noSkipNull = true ∧ label = "SKIP_NULL_PREDICATE") then .ok none
      else loadExpressionFromJSONObject c label obj := by
  unfold loadExpressionFromJSONObject
  rw [lookup_withoutOptionalKeys]
  split_ifs <;> rfl

end decode

/-! ## Index-scan plan node: the claims -/

section indexScanClaims
variable {Json Expr LookupType Scan : Type}

set_option maxRecDepth 8192

/-- C14 (the code departs from the claim): on an index-scan node on which every
expression is present, the text returned by `IndexScanPlanNode::debugInfo` holds the
index name, the lookup type, the sort direction and the dumps of the search-key
expressions, of the end expression, of the skip-null predicate and of the post-scan
predicate, and does not hold the dump of the initial expression: the function never
streams `m_initial_expression`. -/
theorem debugInfo_omits_initial_expression :
    exampleScanNode.debugInfo exampleDebug "" =
      "TargetIndexName[IDX]\nIndexLookupType[3]\nSortDirection[1]\nSearchKey Expressions:\n<key0>\n<key1>\nEnd Expression: \n<end>\nSkip Null Expression: \n<skipnull>\nPost-Scan Expression: \n<post>\n" ∧
    exampleScanNode.m_initial_expression = some "INIT#" ∧
    ¬ textContains (exampleScanNode.debugInfo exampleDebug "") (exampleDebug.debug "INIT#" "") :=
  ⟨rfl, rfl, by decide⟩

/-- C16: `IndexScanPlanNode::loadFromJSONObject` reads each member from its named key,
and when a configuration object decodes to `node`, the object with any of
`END_EXPRESSION`, `INITIAL_EXPRESSION`, `SKIP_NULL_PREDICATE` left out decodes too,
to the node that has "no expression" for exactly the keys left out and is `node`
in every other member: lookup type, sort direction, index name, search keys, the
other optional expressions and the base-class part. The base class is assumed to
read none of the three keys. -/
theorem loadFromJSONObject_optional_keys (c : DecodeCollaborators Json Expr LookupType Scan)
    (obj : PlannerDomValue Json) (node : IndexScanPlanNode Expr LookupType Scan)
    (noEnd noInitial noSkipNull : Bool)
    (hscan : c.scanLoadFromJSONObject (withoutOptionalKeys noEnd noInitial noSkipNull obj) =
      c.scanLoadFromJSONObject obj)
    (h : IndexScanPlanNode.loadFromJSONObject c obj = .ok node) :
    IndexScanPlanNode.loadFromJSONObject c
        (withoutOptionalKeys noEnd noInitial noSkipNull obj) =
      .ok { node with
        m_end_expression := if noEnd then none else node.m_end_expression
        m_initial_expression := if noInitial then none else node.m_initial_expression
        m_skip_null_predicate := if noSkipNull then none else node.m_skip_null_predicate } ∧
    (∃ s, obj.lookup "LOOKUP_TYPE" = some (.str s) ∧
      node.m_lookup_type = c.stringToIndexLookup s) ∧
    (∃ s, obj.lookup "SORT_DIRECTION" = some (.str s) ∧
      node.m_sort_direction = c.stringToSortDirection s) ∧
    obj.lookup "TARGET_INDEX_NAME" = some (.str node.m_target_index_name) ∧
    (obj.lookup "END_EXPRESSION" = none → node.m_end_expression = none) ∧
    (obj.lookup "INITIAL_EXPRESSION" = none → node.m_initial_expression = none) ∧
    (obj.lookup "SKIP_NULL_PREDICATE" = none → node.m_skip_null_predicate = none) := by
  obtain ⟨h1, ⟨l, h2, h2'⟩, ⟨d, h3, h3'⟩, h4, h5, h6, h7, h8⟩ :=
    (loadFromJSONObject_eq_ok c obj node).1 h
  have habsent : ∀ (label : String) (e : Option Expr),
      loadExpressionFromJSONObject c label obj = .ok e → obj.lookup label = none → e = none := by
    intro label e he hl
    unfold loadExpressionFromJSONObject at he
    rw [hl] at he
    cases he
    rfl
  refine ⟨?_, ⟨l, (valueForKeyAsStr_eq_ok obj _ l).1 h2, h2'⟩,
    ⟨d, (valueForKeyAsStr_eq_ok obj _ d).1 h3, h3'⟩, (valueForKeyAsStr_eq_ok obj _ _).1 h4,
    habsent _ _ h5, habsent _ _ h6, habsent _ _ h7⟩
  rw [loadFromJSONObject_eq_ok]
  refine ⟨hscan.trans h1, ⟨l, ?_, h2'⟩, ⟨d, ?_, h3'⟩, ?_, ?_, ?_, ?_, ?_⟩
  · rw [valueForKeyAsStr_withoutOptionalKeys _ _ _ _ _ (by decide) (by decide) (by decide)]
    exact h2
  · rw [valueForKeyAsStr_withoutOptionalKeys _ _ _ _ _ (by decide) (by decide) (by decide)]
    exact h3
  · rw [valueForKeyAsStr_withoutOptionalKeys _ _ _ _ _ (by decide) (by decide) (by decide)]
    exact h4
  · rw [loadExpressionFromJSONObject_withoutOptionalKeys]
    cases noEnd <;> simp [h5]
  · rw [loadExpressionFromJSONObject_withoutOptionalKeys]
    cases noInitial <;> simp [h6]
  · rw [loadExpressionFromJSONObject_withoutOptionalKeys]
    cases noSkipNull <;> simp [h7]
  · unfold loadExpressionsFromJSONObject at h8 ⊢
    rw [lookup_withoutOptionalKeys, if_neg (by simp)]
    exact h8

theorem loadFromJSONObject_optional_keys_witness :
    IndexScanPlanNode.loadFromJSONObject exampleDecode
        (withoutOptionalKeys true false true exampleConfig) =
      .ok ⟨none, "IDX", "GTE", SORT_DIRECTION_TYPE_ASC, ["key0", "key1"],
        none, some "initial", none⟩ ∧
    (∃ s, exampleConfig.lookup "LOOKUP_TYPE" = some (.str s) ∧
      "GTE" = exampleDecode.stringToIndexLookup s) ∧
    (∃ s, exampleConfig.lookup "SORT_DIRECTION" = some (.str s) ∧
      SORT_DIRECTION_TYPE_ASC = exampleDecode.stringToSortDirection s) ∧
    exampleConfig.lookup "TARGET_INDEX_NAME" = some (.str "IDX") :=
  have w := loadFromJSONObject_optional_keys exampleDecode exampleConfig
    ⟨none, "IDX", "GTE", SORT_DIRECTION_TYPE_ASC, ["key0", "key1"],
      some "end", some "initial", some "skipnull"⟩ true false true rfl rfl
  ⟨w.1, w.2.1, w.2.2.1, w.2.2.2.1⟩

end indexScanClaims

end voltdb
